import Mathlib

/-!
Verification development for the parseify parser generator.

The definitions below are a shallow embedding of the Rust sources
(`src/scanner.rs`, `src/productions.rs`, `src/ll_processing.rs`,
`src/lr_processing.rs`).  Rust `HashMap` / `HashSet` collections are
modelled as association lists and node lists kept in insertion order
(their Rust iteration order is unspecified; where a result could depend
on it this is noted next to the claim using it).  `BTreeSet<String>` is
modelled as `Finset String`, and its sorted iteration as `sortFS`
below.  Character spans of tokens are dropped: no
analysed behaviour reads them.  Loops are given explicit fuel; every
fuel value passed is a bound justified at its definition site, so the
embedded functions agree with the (terminating) Rust originals.
-/

namespace Parseify

/-- A scanner token: `kind` and `value`, as in `scanner.rs` (span dropped). -/
structure Token where
  kind : String
  value : String
deriving DecidableEq

/-- Scan errors of `scanner.rs`: `UnexpectedChar(expected, saw)` and `NoMoreChars`. -/
inductive ScanError where
  | unexpectedChar (expected : Char) (saw : Char)
  | noMoreChars
deriving DecidableEq

deriving instance DecidableEq for Except

/-- `Scanner::has_next`: the cursor is strictly before the end of the file. -/
def hasNext (f : List Char) (p : Nat) : Bool :=
  p < f.length

/-- `Scanner::current`: the character at the cursor, or `NoMoreChars`. -/
def currentC (f : List Char) (p : Nat) : Except ScanError Char :=
  match f.get? p with
  | none => .error .noMoreChars
  | some c => .ok c

/-- `Scanner::match_char`: demand `expected` at the cursor and advance. -/
def matchChar (f : List Char) (p : Nat) (expected : Char) : Except ScanError Nat :=
  match f.get? p with
  | none => .error .noMoreChars
  | some c => if c = expected then .ok (p + 1) else .error (.unexpectedChar expected c)

/-- Identifier start characters: `_` or alphabetic (`scanner.rs` line 81). -/
def identStartC (c : Char) : Bool :=
  c = '_' || c.isAlpha

/-- Identifier continuation characters: `_`, alphabetic or decimal digit. -/
def identContC (c : Char) : Bool :=
  c = '_' || c.isAlpha || c.isDigit

/-- The loop of `Scanner::identifier`: keep consuming identifier characters;
`current()?` propagates `NoMoreChars` at end of input.  Fuel
`f.length + 1` always suffices (the cursor advances every step). -/
def identLoop : Nat → List Char → Nat → Except ScanError Nat
  | 0, _, _ => .error .noMoreChars
  | fuel + 1, f, p =>
    match currentC f p with
    | .error e => .error e
    | .ok c => if identContC c then identLoop fuel f (p + 1) else .ok p

/-- `Scanner::identifier`: consume the optional start character then loop. -/
def identifierF (f : List Char) (p : Nat) : Except ScanError Nat :=
  match currentC f p with
  | .error e => .error e
  | .ok c => identLoop (f.length + 1) f (if identStartC c then p + 1 else p)

/-- The loop of `Scanner::whitespace`: consume whitespace; `current()?`
propagates `NoMoreChars` at end of input. -/
def wsLoop : Nat → List Char → Nat → Except ScanError Nat
  | 0, _, _ => .error .noMoreChars
  | fuel + 1, f, p =>
    match currentC f p with
    | .error e => .error e
    | .ok c => if c.isWhitespace then wsLoop fuel f (p + 1) else .ok p

/-- The scanning loop of `Scanner::comment`: consume until a newline or
end of input (this loop checks `has_next` itself, so it cannot fail). -/
def commentLoop : Nat → List Char → Nat → Nat
  | 0, _, p => p
  | fuel + 1, f, p =>
    match f.get? p with
    | none => p
    | some c => if c ≠ '\n' then commentLoop fuel f (p + 1) else p

/-- `Scanner::comment`: `//`, characters up to a newline, then the newline;
at end of input the trailing `self.current()?` raises `NoMoreChars`. -/
def commentF (f : List Char) (p : Nat) : Except ScanError Nat :=
  match matchChar f p '/' with
  | .error e => .error e
  | .ok p1 =>
    match matchChar f p1 '/' with
    | .error e => .error e
    | .ok p2 =>
      let p3 := commentLoop (f.length + 1) f p2
      match f.get? p3 with
      | none => .error .noMoreChars
      | some c => if c = '\n' then .ok (p3 + 1) else .error (.unexpectedChar '\n' c)

/-- The middle loop of `Scanner::literal`: consume until a quote; a newline
inside a literal is `UnexpectedChar('"', '\n')`; end of input is
`NoMoreChars`. -/
def litLoop : Nat → List Char → Nat → Except ScanError Nat
  | 0, _, _ => .error .noMoreChars
  | fuel + 1, f, p =>
    match currentC f p with
    | .error e => .error e
    | .ok c =>
      if c = '"' ∨ c = '\'' then .ok p
      else if c = '\n' then .error (.unexpectedChar '"' '\n')
      else litLoop fuel f (p + 1)

/-- `Scanner::literal`: an opening quote, the body, a closing quote. -/
def literalF (f : List Char) (p : Nat) : Except ScanError Nat :=
  match currentC f p with
  | .error e => .error e
  | .ok c =>
    if c = '"' ∨ c = '\'' then
      match litLoop (f.length + 1) f (p + 1) with
      | .error e => .error e
      | .ok p2 =>
        match currentC f p2 with
        | .error e => .error e
        | .ok c2 =>
          if c2 = '"' ∨ c2 = '\'' then .ok (p2 + 1)
          else .error (.unexpectedChar '"' c2)
    else .error (.unexpectedChar '"' c)

/-- The substring `file[a..b]` as a `String`. -/
def sliceStr (f : List Char) (a b : Nat) : String :=
  String.mk ((f.drop a).take (b - a))

/-- The main loop of `Scanner::scan`.  One unit of fuel per produced token
or skipped run; the cursor strictly advances every iteration, so fuel
`f.length + 1` suffices. -/
def scanAux : Nat → List Char → Nat → List Token → Except ScanError (List Token)
  | 0, _, _, _ => .error .noMoreChars
  | fuel + 1, f, p, toks =>
    match f.get? p with
    | none => .ok (toks ++ [⟨"EOF", ""⟩])
    | some c =>
      if c.isWhitespace then
        match wsLoop (f.length + 1) f p with
        | .error e => .error e
        | .ok p2 => scanAux fuel f p2 toks
      else if c = '/' then
        match commentF f p with
        | .error e => .error e
        | .ok p2 => scanAux fuel f p2 toks
      else if identStartC c then
        match identifierF f p with
        | .error e => .error e
        | .ok p2 => scanAux fuel f p2 (toks ++ [⟨"ID", sliceStr f p p2⟩])
      else if c = '"' ∨ c = '\'' then
        match literalF f p with
        | .error e => .error e
        | .ok p2 => scanAux fuel f p2 (toks ++ [⟨"TERM", sliceStr f p p2⟩])
      else if c = ':' then
        match currentC f (p + 1) with
        | .error e => .error e
        | .ok c2 =>
          if c2 = ':' then
            match matchChar f (p + 2) '=' with
            | .error e => .error e
            | .ok p3 => scanAux fuel f p3 (toks ++ [⟨"EQUALS", sliceStr f p p3⟩])
          else scanAux fuel f (p + 1) (toks ++ [⟨"EQUALS", sliceStr f p (p + 1)⟩])
      else if c = ';' then
        scanAux fuel f (p + 1) (toks ++ [⟨"END", sliceStr f p (p + 1)⟩])
      else if c = '.' then
        scanAux fuel f (p + 1) (toks ++ [⟨"END", sliceStr f p (p + 1)⟩])
      else .error (.unexpectedChar '_' c)

/-- `Scanner::scan` on the characters of a file. -/
def scanChars (f : List Char) : Except ScanError (List Token) :=
  scanAux (f.length + 1) f 0 []

/-- `Scanner::scan` on a file given as a string. -/
def scanFile (s : String) : Except ScanError (List Token) :=
  scanChars s.toList


/-- Lexicographic byte order on character lists: the order Rust's
`BTreeSet<String>` iterates in (for the code-point range used here,
code-point order and UTF-8 byte order agree). -/
def strListLe : List Char → List Char → Bool
  | [], _ => true
  | _ :: _, [] => false
  | a :: as, b :: bs =>
    if a.toNat < b.toNat then true
    else if b.toNat < a.toNat then false
    else strListLe as bs

/-- The string order used for `BTreeSet` / `BTreeMap` iteration. -/
def strLe (a b : String) : Prop :=
  strListLe a.toList b.toList = true

instance : DecidableRel strLe := fun a b => by
  unfold strLe
  infer_instance

theorem strListLe_total : ∀ l1 l2, strListLe l1 l2 = true ∨ strListLe l2 l1 = true := by
  intro l1
  induction l1 with
  | nil => intro l2; left; rfl
  | cons a as ih =>
    intro l2
    cases l2 with
    | nil => right; rfl
    | cons b bs =>
      by_cases h1 : a.toNat < b.toNat
      · left; simp [strListLe, h1]
      · by_cases h2 : b.toNat < a.toNat
        · right; simp [strListLe, h1, h2]
        · rcases ih bs with h | h
          · left; simp [strListLe, h1, h2, h]
          · right; simp [strListLe, h1, h2, h]

theorem strListLe_antisymm :
    ∀ l1 l2, strListLe l1 l2 = true → strListLe l2 l1 = true → l1 = l2 := by
  intro l1
  induction l1 with
  | nil =>
    intro l2 _ h2
    cases l2 with
    | nil => rfl
    | cons b bs => simp [strListLe] at h2
  | cons a as ih =>
    intro l2 h1 h2
    cases l2 with
    | nil => simp [strListLe] at h1
    | cons b bs =>
      by_cases hab : a.toNat < b.toNat
      · simp [strListLe, hab, Nat.lt_asymm hab] at h2
      · by_cases hba : b.toNat < a.toNat
        · simp [strListLe, hab, hba] at h1
        · have hcc : a = b := Char.ext (UInt32.ext (show a.toNat = b.toNat by omega))
          subst hcc
          simp only [strListLe, lt_irrefl, if_false] at h1 h2
          rw [ih bs h1 h2]

theorem strListLe_trans :
    ∀ l1 l2 l3, strListLe l1 l2 = true → strListLe l2 l3 = true → strListLe l1 l3 = true := by
  intro l1
  induction l1 with
  | nil => intro l2 l3 _ _; rfl
  | cons a as ih =>
    intro l2 l3 h1 h2
    cases l2 with
    | nil => simp [strListLe] at h1
    | cons b bs =>
      cases l3 with
      | nil => simp [strListLe] at h2
      | cons c cs =>
        simp only [strListLe] at h1 h2 ⊢
        by_cases hab : a.toNat < b.toNat
        · by_cases hbc : b.toNat < c.toNat
          · simp [show a.toNat < c.toNat by omega]
          · by_cases hcb : c.toNat < b.toNat
            · simp [hbc, hcb] at h2
            · simp [show a.toNat < c.toNat by omega]
        · by_cases hba : b.toNat < a.toNat
          · simp [hab, hba] at h1
          · by_cases hbc : b.toNat < c.toNat
            · simp [show a.toNat < c.toNat by omega]
            · by_cases hcb : c.toNat < b.toNat
              · simp [hbc, hcb] at h2
              · have hac : ¬ a.toNat < c.toNat := by omega
                have hca : ¬ c.toNat < a.toNat := by omega
                simp only [hab, hba, if_false, if_neg] at h1
                simp only [hbc, hcb, if_false, if_neg] at h2
                simp [hac, hca] at h1 h2 ⊢
                exact ih bs cs h1 h2

instance : IsTotal String strLe :=
  ⟨fun a b => strListLe_total a.toList b.toList⟩

instance : IsTrans String strLe :=
  ⟨fun a b c => strListLe_trans a.toList b.toList c.toList⟩

instance : IsAntisymm String strLe := by
  refine ⟨fun a b h1 h2 => ?_⟩
  have h := strListLe_antisymm a.toList b.toList h1 h2
  cases a
  cases b
  simp only [String.toList] at h
  simp [h]

/-- The ascending element list of a `Finset String`: the iteration order
of the corresponding `BTreeSet<String>`. -/
def sortFS (s : Finset String) : List String :=
  Quot.liftOn s.val (fun l => List.insertionSort strLe l)
    (fun l1 l2 h =>
      List.eq_of_perm_of_sorted
        ((List.perm_insertionSort strLe l1).trans
          ((List.Perm.trans h (List.perm_insertionSort strLe l2).symm)))
        (List.sorted_insertionSort strLe l1)
        (List.sorted_insertionSort strLe l2))

/-- A production of `productions.rs`: its token list and PREDICT set. -/
structure Production where
  list : List Token
  predict_set : Finset String
deriving DecidableEq

/-- A non-terminal of `productions.rs` with its derived attribute sets. -/
structure NonTerminal where
  name : String
  is_start_term : Bool
  is_nullable : Bool
  first_set : Finset String
  follow_set : Finset String
  productions : List Production
  predict_set : Finset String
deriving DecidableEq

/-- A graph node of `productions.rs` (`Node`): symbol key plus a
terminal flag.  Equality and hashing in the source use only `key`. -/
structure GNode where
  key : String
  is_term : Bool
deriving DecidableEq

/-- The `HashMap<String, HashSet<Node>>` graphs of `productions.rs`,
modelled as an association list in insertion order. -/
abbrev Graph : Type := List (String × List GNode)

/-- Adjacency of `k` (empty when the key is absent; the source only
reads keys it has inserted). -/
def adjOf (g : Graph) (k : String) : List GNode :=
  ((List.find? (fun e => e.1 == k) g).map (fun e => e.2)).getD []

/-- Ensure key `k` exists in the graph (no-op when present). -/
def addKey (g : Graph) (k : String) : Graph :=
  if (List.find? (fun e => e.1 == k) g).isSome then g else g ++ [(k, [])]

/-- `HashSet<Node>::insert` on the adjacency of `k`: node equality is by
key only, so a node with an already-present key is dropped (the first
inserted terminal flag wins, as in the source). -/
def insertNode (g : Graph) (k : String) (n : GNode) : Graph :=
  List.map (fun e =>
    if e.1 == k then
      (e.1, if e.2.any (fun m => m.key == n.key) then e.2 else e.2 ++ [n])
    else e) g

/-- Fuel bound for the graph DFS routines: every nested call pushes a
fresh symbol onto `visited`, and all pushed symbols are the root or a
node key of the graph, so the recursion depth is at most the total node
count plus two. -/
def graphFuel (g : Graph) : Nat :=
  g.foldl (fun a e => a + e.2.length) 0 + g.length + 2

/-- `first_n_follow_set_dfs`: collect terminal-flagged reachable node
keys, threading the visited list exactly as the `&mut Vec` of the
source.  The accumulated set is never read, so it is seeded empty at
the call sites and unioned there. -/
def dfsAux : Nat → Graph → String → Finset String × List String → Finset String × List String
  | 0, _, _, st => st
  | fuel + 1, g, start, (acc, vis) =>
    (adjOf g start).foldl
      (fun (st : Finset String × List String) n =>
        if st.2.contains n.key then st
        else dfsAux fuel g n.key
          ((if n.is_term then insert n.key st.1 else st.1), st.2))
      (acc, vis ++ [start])

/-- One step of the DFS fold of `first_n_follow_set_dfs` (the body of
its `for node in … ` loop), named so the fold can be reasoned about. -/
def dfsStep (fuel : Nat) (g : Graph) (st : Finset String × List String) (n : GNode) :
    Finset String × List String :=
  if st.2.contains n.key then st
  else dfsAux fuel g n.key ((if n.is_term then insert n.key st.1 else st.1), st.2)

/-- The `nullable_info` map (`HashMap<String, bool>`). -/
abbrev Info : Type := List (String × Bool)

/-- `HashMap::get` on the nullability map. -/
def lookupInfo (i : Info) (k : String) : Option Bool :=
  (List.find? (fun e => e.1 == k) i).map (fun e => e.2)

/-- `HashMap::insert` on the nullability map (overwrite or append). -/
def addInfo (i : Info) (k : String) (b : Bool) : Info :=
  if (List.find? (fun e => e.1 == k) i).isSome then
    List.map (fun e => if e.1 == k then (e.1, b) else e) i
  else i ++ [(k, b)]

/-- `get_mut` update of the nullability map (only touches existing keys). -/
def setInfo (i : Info) (k : String) (b : Bool) : Info :=
  List.map (fun e => if e.1 == k then (e.1, b) else e) i

/-- The initial map recording each non-terminal's `is_nullable`. -/
def mkInfo (nts : List NonTerminal) : Info :=
  nts.foldl (fun i nt => addInfo i nt.name nt.is_nullable) []

/-- `nullable_dfs`: the lookups mirror the source's `unwrap`s, which
never fail on the well-formed inputs analysed here (`getD false` for the
early-exit read, `getD true` for the post-recursion read). -/
def nullableDfs : Nat → Info → Graph → String → List String → Info × List String
  | 0, info, _, _, vis => (info, vis)
  | fuel + 1, info, g, start, vis =>
    let vis1 := vis ++ [start]
    if (lookupInfo info start).getD false then (info, vis1)
    else
      let st := (adjOf g start).foldl
        (fun (st : Info × List String × Bool × Bool) adj =>
          match st with
          | (info, vis, isNull, brk) =>
            if brk then (info, vis, isNull, brk)
            else if vis.contains adj.key then (info, vis, isNull, false)
            else if adj.is_term then (info, vis, false, true)
            else
              let r := nullableDfs fuel info g adj.key vis
              if (lookupInfo r.1 adj.key).getD true = false then (r.1, r.2, false, false)
              else (r.1, r.2, isNull, false))
        (info, vis1, true, false)
      match st with
      | (info, vis, isNull, _) =>
        (if (lookupInfo info start).isSome then setInfo info start isNull else info, vis)

/-- The node built from a token: terminal iff the kind is not `ID`. -/
def tokenNode (t : Token) : GNode :=
  ⟨t.value, !(t.kind == "ID")⟩

/-- Phase one of `nullability`, per non-terminal: mark directly-empty
productions nullable (stopping at the first, as the source `break`s)
while adding the merged production edges of the productions seen. -/
def nullGraphProds : Graph → String → List Production → Graph × Bool
  | g, _, [] => (g, false)
  | g, name, p :: rest =>
    if p.list.isEmpty then (g, true)
    else
      nullGraphProds
        (p.list.foldl (fun g t => insertNode (addKey g t.value) name (tokenNode t)) g)
        name rest

/-- One non-terminal of phase one of `nullability`. -/
def nullPhase1Step (st : Graph × List NonTerminal) (nt : NonTerminal) :
    Graph × List NonTerminal :=
  if nt.is_nullable then (st.1, st.2 ++ [nt])
  else
    let r := nullGraphProds (addKey st.1 nt.name) nt.name nt.productions
    (r.1, st.2 ++ [if r.2 then { nt with is_nullable := true } else nt])

/-- Phase one of `nullability` over the whole list. -/
def nullPhase1 (nts : List NonTerminal) : Graph × List NonTerminal :=
  nts.foldl nullPhase1Step ([], [])

/-- The per-production graph of phase three of `nullability`: the global
graph with the current non-terminal removed (as key and as adjacency
node), plus the current production's tokens as the non-terminal's
adjacency (deduplicated by key, as `HashSet<Node>` does). -/
def prodGraphFor (g : Graph) (name : String) (p : Production) : Graph :=
  (g.filter (fun e => !(e.1 == name))).map
      (fun e => (e.1, e.2.filter (fun n => !(n.key == name))))
    ++ [(name,
      p.list.foldl
        (fun l t => if l.any (fun m => m.key == t.value) then l else l ++ [tokenNode t])
        [])]

/-- Phase three of `nullability`, per non-terminal: run `nullable_dfs`
production by production until one makes the non-terminal nullable. -/
def nullPhase3Prods : Info → Graph → String → List Production → Info × Bool
  | info, _, _, [] => (info, false)
  | info, g, name, p :: rest =>
    let pg := prodGraphFor g name p
    let r := nullableDfs (graphFuel pg) info pg name []
    if (lookupInfo r.1 name).getD false then (r.1, true)
    else nullPhase3Prods r.1 g name rest

/-- One non-terminal of phase three of `nullability`. -/
def nullPhase3Step (g : Graph) (st : List NonTerminal × Info) (nt : NonTerminal) :
    List NonTerminal × Info :=
  if nt.is_nullable then (st.1 ++ [nt], st.2)
  else
    let r := nullPhase3Prods st.2 g nt.name nt.productions
    (st.1 ++ [{ nt with is_nullable := r.2 }], r.1)

/-- `productions::nullability`. -/
def nullability (nts : List NonTerminal) : List NonTerminal :=
  let p1 := nullPhase1 nts
  (p1.2.foldl (nullPhase3Step p1.1) ([], mkInfo p1.2)).1

/-- `Iterator::find` over the non-terminal list by name. -/
def lookupNT (nts : List NonTerminal) (v : String) : Option NonTerminal :=
  List.find? (fun nt => nt.name == v) nts

/-- The `first_set` of the named non-terminal (the source `unwrap`s;
well-formed inputs always have the name declared). -/
def firstSetOf (nts : List NonTerminal) (v : String) : Finset String :=
  ((lookupNT nts v).map (fun nt => nt.first_set)).getD ∅

/-- The `is_nullable` flag of the named non-terminal. -/
def isNullableOf (nts : List NonTerminal) (v : String) : Bool :=
  ((lookupNT nts v).map (fun nt => nt.is_nullable)).getD false

/-- The FIRST-graph edges of one production: an edge to each symbol of
the longest nullable prefix, plus the symbol that ends it. -/
def firstGraphProd (info : Info) (name : String) : Graph → List Token → Graph
  | g, [] => g
  | g, t :: rest =>
    let g1 := insertNode (addKey g t.value) name (tokenNode t)
    if t.kind == "ID" && (lookupInfo info t.value).getD false then
      firstGraphProd info name g1 rest
    else g1

/-- The FIRST graph of `first_sets`. -/
def buildFirstGraph (nts : List NonTerminal) (info : Info) : Graph :=
  nts.foldl
    (fun g nt =>
      nt.productions.foldl (fun g p => firstGraphProd info nt.name g p.list)
        (addKey g nt.name))
    []

/-- The FIRST-set update of one non-terminal: the DFS collects into the
existing set (which the traversal itself never reads). -/
def firstUpd (g : Graph) (nt : NonTerminal) : NonTerminal :=
  { nt with first_set := nt.first_set ∪ (dfsAux (graphFuel g) g nt.name (∅, [])).1 }

/-- `productions::first_sets`. -/
def firstSets (nts : List NonTerminal) (info : Info) : List NonTerminal :=
  nts.map (firstUpd (buildFirstGraph nts info))

/-- Insert the members of a `BTreeSet<String>` as terminal nodes, in the
sorted order the Rust iterator produces. -/
def insertTerms (g : Graph) (prevVal : String) (s : Finset String) : Graph :=
  (sortFS s).foldl (fun g term => insertNode g prevVal ⟨term, true⟩) g

/-- The inner `j`-loop of `follow_sets`: scan past `token` while the
scanned symbols stay nullable; if the production's tail is entirely
nullable, fall through to an edge to the owning non-terminal. -/
def followJLoop (nts : List NonTerminal) (info : Info) (prevVal ntName : String) :
    Graph → List Token → Graph
  | g, [] => insertNode g prevVal ⟨ntName, false⟩
  | g, jt :: rest =>
    let g1 := addKey g jt.value
    let g2 :=
      if jt.kind == "ID" then insertTerms g1 prevVal (firstSetOf nts jt.value)
      else insertNode g1 prevVal ⟨jt.value, true⟩
    if (lookupInfo info jt.value).getD false then followJLoop nts info prevVal ntName g2 rest
    else g2

/-- The main token loop of `follow_sets` for one production, carrying
`previous_token`. -/
def followProdLoop (nts : List NonTerminal) (info : Info) (ntName : String) :
    Graph → Token → List Token → Graph
  | g, pv, [] => if pv.kind == "ID" then insertNode g pv.value ⟨ntName, false⟩ else g
  | g, pv, token :: rest =>
    let g1 := addKey g token.value
    if !(pv.kind == "ID") then followProdLoop nts info ntName g1 token rest
    else
      let g2 :=
        if token.kind == "ID" then insertTerms g1 pv.value (firstSetOf nts token.value)
        else insertNode g1 pv.value ⟨token.value, true⟩
      let g3 :=
        if (lookupInfo info token.value).getD false then
          followJLoop nts info pv.value ntName g2 rest
        else g2
      followProdLoop nts info ntName g3 token rest

/-- The FOLLOW-graph contribution of one production. -/
def followGraphProd (nts : List NonTerminal) (info : Info) (ntName : String)
    (g : Graph) (p : Production) : Graph :=
  match p.list with
  | [] => g
  | first :: rest => followProdLoop nts info ntName (addKey g first.value) first rest

/-- The FOLLOW graph of `follow_sets`, including the `EOF` seed key and
the `EOF` edge of the start non-terminal. -/
def buildFollowGraph (nts : List NonTerminal) (info : Info) : Graph :=
  nts.foldl
    (fun g nt =>
      let g1 := addKey g nt.name
      let g2 := nt.productions.foldl (followGraphProd nts info nt.name) g1
      if nt.is_start_term then insertNode g2 nt.name ⟨"EOF", true⟩ else g2)
    [("EOF", [])]

/-- The FOLLOW-set update of one non-terminal. -/
def followUpd (g : Graph) (nt : NonTerminal) : NonTerminal :=
  { nt with follow_set := nt.follow_set ∪ (dfsAux (graphFuel g) g nt.name (∅, [])).1 }

/-- `productions::follow_sets`. -/
def followSets (nts : List NonTerminal) (info : Info) : List NonTerminal :=
  nts.map (followUpd (buildFollowGraph nts info))

/-- The terminals a production's PREDICT set gains: the walk of
`predict_sets` over the token list (FOLLOW of the owner exactly when
the walk falls off the end of the list). -/
def predictAdds (nts : List NonTerminal) (follow : Finset String) : List Token → Finset String
  | [] => follow
  | t :: rest =>
    if !(t.kind == "ID") then {t.value}
    else
      firstSetOf nts t.value ∪
        (if isNullableOf nts t.value then predictAdds nts follow rest else ∅)

/-- The PREDICT-set update of one production. -/
def predictProdUpd (nts : List NonTerminal) (follow : Finset String) (p : Production) :
    Production :=
  { p with predict_set := p.predict_set ∪ predictAdds nts follow p.list }

/-- `productions::predict_sets` (also `ll_processing::predict_sets`;
the two are textually identical in the source). -/
def predictSets (nts : List NonTerminal) : List NonTerminal :=
  nts.map (fun nt =>
    { nt with productions := nt.productions.map (predictProdUpd nts nt.follow_set) })

/-- One diagnostic of `print_ambiguity`: the non-terminal's name and the
set of clashing terminals. -/
structure AmbDiag where
  ntName : String
  inter : Finset String
deriving DecidableEq

/-- The per-non-terminal loop of `find_ambiguities`: intersect each
production's PREDICT set with the running union of its predecessors. -/
def ambAux (name : String) (seen : Finset String) : List Production → List AmbDiag
  | [] => []
  | p :: ps =>
    (if 0 < (seen ∩ p.predict_set).card then [⟨name, seen ∩ p.predict_set⟩] else [])
      ++ ambAux name (seen ∪ p.predict_set) ps

/-- `productions::find_ambiguities` (also `ll_processing`'s copy),
returning the list of emitted diagnostics. -/
def findAmbiguitiesL (nts : List NonTerminal) : List AmbDiag :=
  (nts.map (fun nt => ambAux nt.name ∅ nt.productions)).flatten

/-- The EOF-stripping of `process`: drop the last token of a non-empty
production when its kind is `EOF`. -/
def stripProd (p : Production) : Production :=
  match p.list.getLast? with
  | none => p
  | some t => if t.kind == "EOF" then { p with list := p.list.dropLast } else p

/-- The post-processing loop of `process`: the stripping runs only for
the start non-terminal. -/
def stripStage (nts : List NonTerminal) : List NonTerminal :=
  nts.map (fun nt =>
    if nt.is_start_term then { nt with productions := nt.productions.map stripProd }
    else nt)

/-- The four analysis stages of `process` in order (`nullable_info` is
computed once, after `nullability`). -/
def analyzeCore (nts : List NonTerminal) : List NonTerminal :=
  let n1 := nullability nts
  let info := mkInfo n1
  predictSets (followSets (firstSets n1 info) info)

/-- `productions::process`: the analysis stages, the ambiguity
diagnostics, and the EOF post-processing. -/
def processNts (nts : List NonTerminal) : List NonTerminal × List AmbDiag :=
  let n4 := analyzeCore nts
  (stripStage n4, findAmbiguitiesL n4)

/-- An `ID` token. -/
def tokID (v : String) : Token := ⟨"ID", v⟩

/-- A `TERM` token. -/
def tokTerm (v : String) : Token := ⟨"TERM", v⟩

/-- A fresh production as the parser builds it. -/
def mkProd (l : List Token) : Production := ⟨l, ∅⟩

/-- A fresh non-terminal as the parser builds it. -/
def mkNT (name : String) (start : Bool) (prods : List Production) : NonTerminal :=
  ⟨name, start, false, ∅, ∅, prods, ∅⟩

/-- The grammar `A ::= B ; B ::= 'b' | C C ; C ::= ;` in parser order. -/
def gOne : List NonTerminal :=
  [mkNT "A" true [mkProd [tokID "B"]],
   mkNT "B" false [mkProd [tokTerm "b"], mkProd [tokID "C", tokID "C"]],
   mkNT "C" false [mkProd []]]

/-- An LR table action (`lr_processing::Action`). -/
inductive Action where
  | accept
  | shift (n : Nat)
  | reduce (ts : List Token) (lhs : String)
deriving DecidableEq

/-- An LR item (`ContextualProduction`): owner, matched part of the
right-hand side, part still to match, and LR(1) lookahead set (the
source reuses the field name `predict_set`). -/
structure CtxProd where
  nt_name : String
  matched : List Token
  will_match : List Token
  predict_set : Finset String
deriving DecidableEq

/-- A closure (`lr_processing::Closure`): the item list plus the
outgoing transitions, a `BTreeMap` kept sorted by symbol value. -/
inductive Closure where
  | mk (prods : List CtxProd) (transitions : List (String × Closure))

/-- The item list of a closure. -/
def Closure.prods : Closure → List CtxProd
  | .mk p _ => p

/-- The transition map of a closure. -/
def Closure.transitions : Closure → List (String × Closure)
  | .mk _ t => t

/-- `BTreeMap::insert` of an empty closure when the key is absent,
keeping the keys in the sorted order the map iterates in. -/
def transEnsure : List (String × Closure) → String → List (String × Closure)
  | [], k => [(k, .mk [] [])]
  | (k', c') :: rest, k =>
    if k == k' then (k', c') :: rest
    else if strListLe k.toList k'.toList then (k, .mk [] []) :: (k', c') :: rest
    else (k', c') :: transEnsure rest k

/-- Append an item to the entry of `k` in a transition map. -/
def transPush (ts : List (String × Closure)) (k : String) (p : CtxProd) :
    List (String × Closure) :=
  ts.map (fun e => if e.1 == k then (e.1, .mk (e.2.prods ++ [p]) e.2.transitions) else e)

/-- `ContextualProduction::new_advanced`: move the dot one symbol right. -/
def advanceProd (p : CtxProd) : CtxProd :=
  match p.will_match with
  | [] => p
  | t :: rest => ⟨p.nt_name, p.matched ++ [t], rest, p.predict_set⟩

/-- `lr_processing::goto`: for every item with a pending symbol, add the
advanced item to the transition on that symbol. -/
def gotoF (c : Closure) : Closure :=
  .mk c.prods
    (c.prods.foldl
      (fun ts p =>
        match p.will_match with
        | [] => ts
        | t :: _ => transPush (transEnsure ts t.value) t.value (advanceProd p))
      c.transitions)

/-- The scan of `calculate_followers` over the symbols after the
expanded non-terminal (terminal-versus-non-terminal is decided by
lookup in the non-terminal list, as in the source). -/
def calcFollowAux (ntl : List NonTerminal) (pred : Finset String) : List Token → Finset String
  | [] => pred
  | t :: rest =>
    match lookupNT ntl t.value with
    | none => {t.value}
    | some nt => nt.first_set ∪ (if nt.is_nullable then calcFollowAux ntl pred rest else ∅)

/-- `lr_processing::calculate_followers`. -/
def calculateFollowers (ntl : List NonTerminal) (parent : CtxProd) : Finset String :=
  match parent.will_match with
  | [] => parent.predict_set
  | _ :: rest => calcFollowAux ntl parent.predict_set rest

/-- `lr_processing::production_closure`.  A chain of nested calls grows
`seen` at every expansion, so the recursion depth is at most the number
of non-terminals plus two; the call sites pass that fuel. -/
def productionClosure :
    Nat → List NonTerminal → Bool → List String → CtxProd → List CtxProd →
      List String × List CtxProd
  | 0, _, _, seen, _, set => (seen, set)
  | fuel + 1, ntl, k0, seen, p, set =>
    if set.any (fun q => q == p) then (seen, set)
    else
      let set1 := set ++ [p]
      match p.will_match with
      | [] => (seen, set1)
      | t :: _ =>
        match lookupNT ntl t.value with
        | none => (seen, set1)
        | some nt =>
          let followers := if k0 then ∅ else calculateFollowers ntl p
          if seen.contains nt.name then
            (seen, set1.map (fun q =>
              if q.nt_name == nt.name then { q with predict_set := q.predict_set ∪ followers }
              else q))
          else
            nt.productions.foldl
              (fun st prod =>
                productionClosure fuel ntl k0 st.1 ⟨nt.name, [], prod.list, followers⟩ st.2)
              (seen ++ [nt.name], set1)

/-- `lr_processing::closure`: rebuild the item list from the initial
items, sharing one `seen_nts` set. -/
def closureF (ntl : List NonTerminal) (k0 : Bool) (c : Closure) : Closure :=
  let r := c.prods.foldl
    (fun (st : List String × List CtxProd) p =>
      productionClosure (ntl.length + 2) ntl k0 st.1 p st.2)
    ([], [])
  .mk r.2 c.transitions

/-- `lr_processing::fill_out_automaton`: close the node, stop when its
item set was already discovered, otherwise apply goto and recurse into
the transitions in key order.  Each nested call discovers a new item
set, so depth is bounded by the number of distinct item sets; the fuel
passed (1000) covers every grammar analysed here. -/
def fillOut :
    Nat → List NonTerminal → Bool → Closure → List (List CtxProd) →
      Closure × List (List CtxProd)
  | 0, _, _, c, cs => (c, cs)
  | fuel + 1, ntl, k0, c, cs =>
    let c1 := closureF ntl k0 c
    if cs.any (fun ps => ps == c1.prods) then (c1, cs)
    else
      let c2 := gotoF c1
      let cs1 := cs ++ [c2.prods]
      let r := c2.transitions.foldl
        (fun (st : List (String × Closure) × List (List CtxProd)) e =>
          let r2 := fillOut fuel ntl k0 e.2 st.2
          (st.1 ++ [(e.1, r2.1)], r2.2))
        ([], cs1)
      (.mk c2.prods r.1, r.2)

/-- `lr_processing::recalculate_set`: preorder collection of the
closure tree, deduplicated by item-set equality. -/
def recalcSet : Nat → Closure → List Closure → List Closure
  | 0, _, cs => cs
  | fuel + 1, c, cs =>
    if cs.any (fun c' => c'.prods == c.prods) then cs
    else c.transitions.foldl (fun cs e => recalcSet fuel e.2 cs) (cs ++ [c])

/-- `lr_processing::find_closure_index`. -/
def findClosureIndex (cs : List Closure) (c : Closure) : Option Nat :=
  cs.findIdx? (fun c' => c'.prods == c.prods)

/-- An LR parser state (`lr_processing::State`); the two `HashMap`s are
association lists in insertion order. -/
structure LrState where
  common_actions : List Action
  actions : List (String × List Action)
  nt_state_transitions : List (String × Nat)
deriving DecidableEq

/-- The LR state table (`lr_processing::StateTable`). -/
structure StateTable where
  states : List LrState
  seen_terms : Finset String
  seen_non_terms : Finset String
deriving DecidableEq

/-- Ensure an (empty) action list exists for terminal `k`. -/
def actionsEnsure (a : List (String × List Action)) (k : String) :
    List (String × List Action) :=
  if (List.find? (fun e => e.1 == k) a).isSome then a else a ++ [(k, [])]

/-- Append an action to the action list of terminal `k`. -/
def actionsPush (a : List (String × List Action)) (k : String) (act : Action) :
    List (String × List Action) :=
  a.map (fun e => if e.1 == k then (e.1, e.2 ++ [act]) else e)

/-- `HashMap::insert` for the goto map. -/
def ntTransInsert (m : List (String × Nat)) (k : String) (v : Nat) : List (String × Nat) :=
  if (List.find? (fun e => e.1 == k) m).isSome then
    m.map (fun e => if e.1 == k then (e.1, v) else e)
  else m ++ [(k, v)]

/-- The completed-item pass of the table loop of `lr_process`, threading
the state under construction and the table's `seen_terms`. -/
def stateAddReduceItem (k0 : Bool) (st : LrState × Finset String) (p : CtxProd) :
    LrState × Finset String :=
  if !p.will_match.isEmpty then st
  else if k0 then
    if p.nt_name == "" then
      ({ st.1 with actions := actionsPush (actionsEnsure st.1.actions "EOF") "EOF" .accept },
        insert "EOF" st.2)
    else
      ({ st.1 with common_actions := st.1.common_actions ++ [.reduce p.matched p.nt_name] },
        st.2)
  else
    (sortFS p.predict_set).foldl
      (fun st pred =>
        let act := if p.nt_name == "" then Action.accept else Action.reduce p.matched p.nt_name
        ({ st.1 with actions := actionsPush (actionsEnsure st.1.actions pred) pred act },
          insert pred st.2))
      st

/-- The transition pass of the table loop of `lr_process`.  The source
panics when a transition target is not in the closure set; that cannot
happen after `recalculate_set`, and the embedding defaults to index 0. -/
def stateAddTransition (ntl : List NonTerminal) (closureSet : List Closure)
    (st : LrState × Finset String × Finset String) (e : String × Closure) :
    LrState × Finset String × Finset String :=
  let idx := (findClosureIndex closureSet e.2).getD 0
  if (lookupNT ntl e.1).isSome then
    ({ st.1 with nt_state_transitions := ntTransInsert st.1.nt_state_transitions e.1 idx },
      st.2.1, insert e.1 st.2.2)
  else
    ({ st.1 with actions := actionsPush (actionsEnsure st.1.actions e.1) e.1 (.shift idx) },
      insert e.1 st.2.1, st.2.2)

/-- Materialize one closure into a state and append it to the table. -/
def buildState (ntl : List NonTerminal) (closureSet : List Closure) (k0 : Bool)
    (tbl : StateTable) (current : Closure) : StateTable :=
  let r1 := current.prods.foldl (stateAddReduceItem k0) (⟨[], [], []⟩, tbl.seen_terms)
  let r2 := current.transitions.foldl (stateAddTransition ntl closureSet)
    (r1.1, r1.2, tbl.seen_non_terms)
  { states := tbl.states ++ [r2.1], seen_terms := r2.2.1, seen_non_terms := r2.2.2 }

/-- `lr_processing::lr_process` (diagnostics are produced separately by
`checkAmbiguitiesL`, mirroring the `check_ambiguities` call). -/
def lrProcess (ntl : List NonTerminal) (k0 : Bool) : StateTable :=
  let startName := ntl.foldl (fun s nt => if nt.is_start_term then nt.name else s) ""
  let startProd : CtxProd := ⟨"", [], [⟨"", startName⟩], {"EOF"}⟩
  let r := fillOut 1000 ntl k0 (.mk [startProd] []) []
  let closureSet := recalcSet 1000 r.1 []
  closureSet.foldl (buildState ntl closureSet k0) ⟨[], ∅, ∅⟩

/-- One diagnostic of `check_ambiguities`: state index, lookahead, and
the competing actions in the order `resolve_actions_to_string` prints
them (common actions first). -/
structure LrDiag where
  stateIdx : Nat
  lookahead : String
  acts : List Action
deriving DecidableEq

/-- The diagnostics one state contributes: one per terminal present in
its actions map whose action count, plus the common-action count,
exceeds one. -/
def stateDiags (i : Nat) (st : LrState) : List LrDiag :=
  (st.actions.filter (fun e => decide (1 < e.2.length + st.common_actions.length))).map
    (fun e => ⟨i, e.1, st.common_actions ++ e.2⟩)

/-- The state loop of `check_ambiguities`. -/
def checkAmbAux : Nat → List LrState → List LrDiag
  | _, [] => []
  | i, st :: rest => stateDiags i st ++ checkAmbAux (i + 1) rest

/-- `lr_processing::check_ambiguities`, as the list of diagnostics. -/
def checkAmbiguitiesL (tbl : StateTable) : List LrDiag :=
  checkAmbAux 0 tbl.states

/-- The grammar `S ::= 't' ;` of the single-production boundary case. -/
def gThree : List NonTerminal :=
  [mkNT "S" true [mkProd [tokTerm "t"]]]

/-- The grammar `S ::= A | B ; A ::= 'a' ; B ::= 'a' ;` (an LR(0)
reduce/reduce conflict grammar). -/
def gFour : List NonTerminal :=
  [mkNT "S" true [mkProd [tokID "A"], mkProd [tokID "B"]],
   mkNT "A" false [mkProd [tokTerm "a"]],
   mkNT "B" false [mkProd [tokTerm "a"]]]

/-- The grammar `S ::= A 'x' ; A ::= ;` (empty-RHS boundary case). -/
def gFive : List NonTerminal :=
  [mkNT "S" true [mkProd [tokID "A", tokTerm "x"]],
   mkNT "A" false [mkProd []]]

/-- `gFive` after nullability, FIRST and FOLLOW — the pipeline state in
which `predict_sets` runs. -/
def gFiveMid : List NonTerminal :=
  followSets (firstSets (nullability gFive) (mkInfo (nullability gFive)))
    (mkInfo (nullability gFive))

/-- A dangling-else style IR with populated PREDICT sets: two
productions of `S` both predict `if`. -/
def gSix : List NonTerminal :=
  [⟨"S", true, false, {"if", "other"}, {"EOF"},
    [⟨[tokTerm "if"], {"if"}⟩, ⟨[tokTerm "if"], {"if"}⟩, ⟨[tokTerm "other"], {"other"}⟩],
    ∅⟩]

/-- An IR whose non-start non-terminal `B` has a production ending in
the literal terminal `EOF`. -/
def gEight : List NonTerminal :=
  [mkNT "S" true [mkProd [tokTerm "a"]],
   mkNT "B" false [mkProd [tokTerm "a", tokTerm "EOF"]]]

/-- An IR with populated PREDICT sets in which three productions of `S`
share the predict terminal `t`. -/
def gNine : List NonTerminal :=
  [⟨"S", true, false, {"t"}, {"EOF"},
    [⟨[tokTerm "t"], {"t"}⟩, ⟨[tokTerm "t"], {"t"}⟩, ⟨[tokTerm "t"], {"t"}⟩], ∅⟩]

/-- The raw IR of the grammar `S ::= 'a' | 'a' ;` (two identical
productions of the start symbol). -/
def gNinePipe : List NonTerminal :=
  [mkNT "S" true [mkProd [tokTerm "a"], mkProd [tokTerm "a"]]]

/-- The ambiguity diagnostics printed during one full default-mode
pipeline run of `main.rs`: `productions::process` runs
`find_ambiguities` once on the analysed IR, then `ll_process` reruns
`predict_sets` and `find_ambiguities` on the processed (stripped)
IR. -/
def llPipelineDiags (nts : List NonTerminal) : List AmbDiag :=
  (processNts nts).2 ++ findAmbiguitiesL (predictSets (processNts nts).1)

/-- Modelled from the spec: `N ⇒* ε` — some production of `N` derives
the empty string, directly or transitively through nullable
non-terminals (spec §3 invariants and §8 invariant 1). -/
inductive SpecNullable (nts : List NonTerminal) : String → Prop where
  | intro (nt : NonTerminal) (p : Production) (hnt : nt ∈ nts) (hp : p ∈ nt.productions)
      (hkind : ∀ t ∈ p.list, t.kind = "ID")
      (hrec : ∀ t ∈ p.list, SpecNullable nts t.value) :
      SpecNullable nts nt.name

/-- Modelled from the spec: FIRST of a symbol string, computed from the
stored `first_set` and `is_nullable` attributes (spec §4.4). -/
def specFIRST (nts : List NonTerminal) : List Token → Finset String
  | [] => ∅
  | t :: rest =>
    if t.kind = "ID" then
      firstSetOf nts t.value ∪ (if isNullableOf nts t.value then specFIRST nts rest else ∅)
    else {t.value}

/-- Modelled from the spec: every symbol of the string is a nullable
non-terminal (`α ⇒* ε` over the stored attributes). -/
def specAllNullable (nts : List NonTerminal) (l : List Token) : Prop :=
  ∀ t ∈ l, t.kind = "ID" ∧ isNullableOf nts t.value = true

instance (nts : List NonTerminal) (l : List Token) : Decidable (specAllNullable nts l) := by
  unfold specAllNullable
  infer_instance

/-- Removal of a trailing token of kind `EOF` from a symbol string. -/
def specStripList (l : List Token) : List Token :=
  match l.getLast? with
  | none => l
  | some t => if t.kind = "EOF" then l.dropLast else l

/-- The shape of a non-terminal that the analysis stages may not touch:
name, start flag, and the token lists of its productions. -/
def projNT (nt : NonTerminal) : String × Bool × List (List Token) :=
  (nt.name, nt.is_start_term, nt.productions.map (fun p => p.list))

/-- Every node with key `EOF` carries the terminal flag — true of every
FOLLOW graph of an IR with no non-terminal named `EOF`. -/
def EOFInv (g : Graph) : Prop :=
  ∀ k, ∀ n ∈ adjOf g k, n.key = "EOF" → n.is_term = true

/-- C2: the grammar source format separates alternatives with `|`, and
`parser.rs` consumes tokens of kind `|`, but `Scanner::scan` has no arm
for the bar character: on the well-formed grammar file
`S : 'a' | 'b' ;` it returns `Err(UnexpectedChar('_', '|'))` instead of
producing a `|` token. -/
theorem c2_scan_bar_code_bug :
    scanFile "S : 'a' | 'b' ;" = .error (.unexpectedChar '_' '|') := by
  decide

/-- C3 counterexample: on the analysed grammar `S ::= 't' ;` the LR
builder does not produce 4 states, in either LR(0) or LR(1) mode. -/
theorem c3_counterexample :
    (lrProcess (analyzeCore gThree) true).states.length ≠ 4 ∧
    (lrProcess (analyzeCore gThree) false).states.length ≠ 4 := by
  decide

/-- C3 amended: on the analysed grammar `S ::= 't' ;` the LR builder
produces exactly 3 states in both modes (start, the state after the
terminal shift, and the state after the goto on `S`; `Accept` is an
action of the latter, not a fourth state). -/
theorem c3_three_states :
    (lrProcess (analyzeCore gThree) true).states.length = 3 ∧
    (lrProcess (analyzeCore gThree) false).states.length = 3 := by
  decide

/-- C1: the nullability analyzer is a single pass in definition order,
so on `A ::= B ; B ::= 'b' | C C ; C ::= ;` it decides `A` before `B`
is known nullable and leaves `is_nullable(A) = false`, although
`A ⇒ B ⇒ C C ⇒* ε` (this holds for every iteration order of the
source's hash containers: both orders of `B`'s merged adjacency reject
`B` while `A` is being decided). -/
theorem c1_nullability_code_bug :
    (nullability gOne).map (fun nt => (nt.name, nt.is_nullable)) =
      [("A", false), ("B", true), ("C", true)] ∧
    SpecNullable gOne "A" := by
  constructor
  · decide
  · have hC : SpecNullable gOne "C" := by
      refine SpecNullable.intro (mkNT "C" false [mkProd []]) (mkProd []) ?_ ?_ ?_ ?_
      · simp [gOne]
      · simp [mkNT]
      · intro t ht
        simp [mkProd] at ht
      · intro t ht
        simp [mkProd] at ht
    have hB : SpecNullable gOne "B" := by
      refine SpecNullable.intro (mkNT "B" false [mkProd [tokTerm "b"], mkProd [tokID "C", tokID "C"]])
        (mkProd [tokID "C", tokID "C"]) ?_ ?_ ?_ ?_
      · simp [gOne]
      · simp [mkNT]
      · intro t ht
        simp [mkProd] at ht
        subst ht
        rfl
      · intro t ht
        simp [mkProd] at ht
        subst ht
        exact hC
    refine SpecNullable.intro (mkNT "A" true [mkProd [tokID "B"]]) (mkProd [tokID "B"]) ?_ ?_ ?_ ?_
    · simp [gOne]
    · simp [mkNT]
    · intro t ht
      simp [mkProd] at ht
      subst ht
      rfl
    · intro t ht
      simp [mkProd] at ht
      subst ht
      exact hB

/-- C9 counterexample: both conjuncts of the claim fail.  (1) The
pipeline is not idempotent — after the full analysis of
`A ::= B ; B ::= 'b' | C C ; C ::= ;` the stored `is_nullable` values
are `[false, true, true]`, and running the nullability stage again on
that populated IR changes `A`'s flag to `true`.  (2) Ambiguities are
reported twice within a single pipeline run: on `S ::= 'a' | 'a' ;`
the default pipeline prints the diagnostic `(S, {a})` twice (once from
`process`, once from `ll_process`), and a single `find_ambiguities`
call already prints `(S, {t})` twice when three productions of `S`
share the predict terminal `t`. -/
theorem c9_counterexample :
    ((analyzeCore gOne).map (fun nt => nt.is_nullable) = [false, true, true] ∧
     (nullability (analyzeCore gOne)).map (fun nt => nt.is_nullable) = [true, true, true]) ∧
    llPipelineDiags gNinePipe = [⟨"S", {"a"}⟩, ⟨"S", {"a"}⟩] ∧
    findAmbiguitiesL gNine = [⟨"S", {"t"}⟩, ⟨"S", {"t"}⟩] := by
  refine ⟨⟨by decide, by decide⟩, by decide, by decide⟩

/-- C8 counterexample: after the full pipeline, the production
`B ::= 'a' EOF` of the non-start non-terminal `B` is unchanged — its
trailing literal `EOF` is not removed (the stripping loop skips every
non-start non-terminal, and the literal's kind is `TERM`, not the
`EOF` kind the loop tests). -/
theorem c8_counterexample :
    ((processNts gEight).1.get? 1).map (fun nt => nt.productions.map (fun p => p.list)) =
      some [[tokTerm "a", tokTerm "EOF"]] := by
  decide

/-- C4 counterexample: on the analysed grammar
`S ::= A | B ; A ::= 'a' ; B ::= 'a' ;` in LR(0) mode, state 4 holds
two common actions (a reduce/reduce conflict under every lookahead) and
an empty actions map, `EOF` is a seen terminal with no entry there so
that `|actions(4, EOF)| + |common(4)| = 2 > 1`, yet the reporter emits
no diagnostic at all. -/
theorem c4_counterexample :
    checkAmbiguitiesL (lrProcess (analyzeCore gFour) true) = [] ∧
    ((lrProcess (analyzeCore gFour) true).states.get? 4).map
      (fun s => (s.common_actions.length, List.find? (fun e => e.1 == "EOF") s.actions)) =
      some (2, none) ∧
    "EOF" ∈ (lrProcess (analyzeCore gFour) true).seen_terms := by
  refine ⟨by decide, by decide, by decide⟩

theorem predictAdds_eq (nts : List NonTerminal) (follow : Finset String) :
    ∀ l : List Token,
      predictAdds nts follow l =
        specFIRST nts l ∪ (if specAllNullable nts l then follow else ∅) := by
  intro l
  induction l with
  | nil => simp [predictAdds, specFIRST, specAllNullable]
  | cons t rest ih =>
    by_cases hk : t.kind = "ID"
    · have hk' : (t.kind == "ID") = true := by simp [hk]
      by_cases hn : isNullableOf nts t.value = true
      · have hcond : specAllNullable nts (t :: rest) ↔ specAllNullable nts rest := by
          constructor
          · intro h x hx
            exact h x (List.mem_cons_of_mem t hx)
          · intro h x hx
            rcases List.mem_cons.mp hx with h1 | h1
            · subst h1
              exact ⟨hk, hn⟩
            · exact h x h1
        rw [show (if specAllNullable nts (t :: rest) then follow else ∅)
              = (if specAllNullable nts rest then follow else ∅) from if_congr hcond rfl rfl]
        simp [predictAdds, specFIRST, hk', hk, hn, ih, Finset.union_assoc]
      · have hcond : ¬ specAllNullable nts (t :: rest) :=
          fun h => hn (h t (List.mem_cons_self t rest)).2
        simp [predictAdds, specFIRST, hk', hk, hn, hcond]
    · have hk' : (t.kind == "ID") = false := by simp [hk]
      have hcond : ¬ specAllNullable nts (t :: rest) :=
        fun h => hk (h t (List.mem_cons_self t rest)).1
      simp [predictAdds, specFIRST, hk', hk, hcond]

/-- C5: after the PREDICT analyzer runs on an IR whose production
PREDICT sets start empty, each production's PREDICT set is FIRST of its
right-hand side (computed from the stored `first_set` / `is_nullable`
attributes) unioned with the owner's FOLLOW set exactly when every
symbol of the right-hand side is a nullable non-terminal (in particular
when it is empty), and unioned with nothing otherwise. -/
theorem c5_predict_sets :
    ∀ (nts : List NonTerminal) (i j : Nat) (nt : NonTerminal) (p : Production),
      nts[i]? = some nt → nt.productions[j]? = some p → p.predict_set = ∅ →
      ((predictSets nts)[i]?).bind (fun nt' => nt'.productions[j]?) =
        some ⟨p.list,
          specFIRST nts p.list ∪
            (if specAllNullable nts p.list then nt.follow_set else ∅)⟩ := by
  intro nts i j nt p hi hj hp
  unfold predictSets
  rw [List.getElem?_map, hi]
  simp only [Option.map_some', Option.some_bind]
  rw [List.getElem?_map, hj]
  simp only [Option.map_some']
  unfold predictProdUpd
  rw [hp, predictAdds_eq]
  simp

/-- C5 witness: the theorem applied to the empty-RHS scenario grammar
`S ::= A 'x' ; A ::= ;` in the pipeline state before `predict_sets`. -/
theorem c5_witness :
    ((predictSets gFiveMid)[1]?).bind (fun nt' => nt'.productions[0]?) =
      some ⟨[],
        specFIRST gFiveMid [] ∪
          (if specAllNullable gFiveMid [] then ({"x"} : Finset String) else ∅)⟩ :=
  c5_predict_sets gFiveMid 1 0 ⟨"A", false, true, ∅, {"x"}, [mkProd []], ∅⟩ (mkProd [])
    (by decide) (by decide) (by decide)

theorem ambAux_name :
    ∀ (ps : List Production) (name : String) (seen : Finset String) (d : AmbDiag),
      d ∈ ambAux name seen ps → d.ntName = name := by
  intro ps
  induction ps with
  | nil =>
    intro name seen d hd
    simp [ambAux] at hd
  | cons p ps ih =>
    intro name seen d hd
    rw [ambAux, List.mem_append] at hd
    rcases hd with hd | hd
    · split at hd
      · simp at hd
        rw [hd]
      · simp at hd
    · exact ih name (seen ∪ p.predict_set) d hd

theorem ambAux_eq_nil_iff :
    ∀ (ps : List Production) (name : String) (seen : Finset String),
      ambAux name seen ps = [] ↔
        ((∀ p ∈ ps, seen ∩ p.predict_set = ∅) ∧
          List.Pairwise (fun p q : Production => p.predict_set ∩ q.predict_set = ∅) ps) := by
  intro ps
  induction ps with
  | nil =>
    intro name seen
    simp [ambAux]
  | cons p ps ih =>
    intro name seen
    rw [ambAux, List.append_eq_nil, ih]
    constructor
    · rintro ⟨h1, h2, h3⟩
      have hsp : seen ∩ p.predict_set = ∅ := by
        by_contra hne
        rw [if_pos (Finset.card_pos.mpr (Finset.nonempty_iff_ne_empty.mpr hne))] at h1
        exact absurd h1 (by simp)
      have h2' : ∀ q ∈ ps, seen ∩ q.predict_set = ∅ ∧ p.predict_set ∩ q.predict_set = ∅ := by
        intro q hq
        have := h2 q hq
        rw [Finset.union_inter_distrib_right, Finset.union_eq_empty] at this
        exact this
      refine ⟨?_, ?_⟩
      · intro q hq
        rcases List.mem_cons.mp hq with rfl | hq'
        · exact hsp
        · exact (h2' q hq').1
      · exact List.Pairwise.cons (fun q hq => (h2' q hq).2) h3
    · rintro ⟨hall, hpair⟩
      rw [List.pairwise_cons] at hpair
      refine ⟨?_, ?_, hpair.2⟩
      · rw [hall p (List.mem_cons_self p ps)]
        simp
      · intro q hq
        rw [Finset.union_inter_distrib_right, Finset.union_eq_empty]
        exact ⟨hall q (List.mem_cons_of_mem p hq), hpair.1 q hq⟩

/-- C6: the LL ambiguity detector emits a diagnostic for a non-terminal
`N` if and only if two distinct productions of `N` have intersecting
PREDICT sets (equivalently, no diagnostic is emitted for `N` exactly
when `N`'s productions have pairwise disjoint PREDICT sets). -/
theorem c6_ll_ambiguities :
    ∀ (nts : List NonTerminal) (nt : NonTerminal),
      nt ∈ nts → (nts.map (fun n => n.name)).Nodup →
      ((∃ d ∈ findAmbiguitiesL nts, d.ntName = nt.name) ↔
        ∃ (i j : Fin nt.productions.length), i < j ∧
          ((nt.productions.get i).predict_set ∩ (nt.productions.get j).predict_set).Nonempty) := by
  intro nts nt hmem hnd
  have key : (∃ d ∈ findAmbiguitiesL nts, d.ntName = nt.name) ↔
      ambAux nt.name ∅ nt.productions ≠ [] := by
    constructor
    · rintro ⟨d, hd, hname⟩
      rw [findAmbiguitiesL, List.mem_flatten] at hd
      obtain ⟨l, hl, hdl⟩ := hd
      rw [List.mem_map] at hl
      obtain ⟨nt', hnt', rfl⟩ := hl
      have heq : nt' = nt := by
        refine List.inj_on_of_nodup_map hnd hnt' hmem ?_
        rw [← hname, ambAux_name nt'.productions nt'.name ∅ d hdl]
      subst heq
      exact List.ne_nil_of_mem hdl
    · intro hne
      obtain ⟨d, hd⟩ := List.exists_mem_of_ne_nil _ hne
      refine ⟨d, ?_, ambAux_name _ _ _ _ hd⟩
      rw [findAmbiguitiesL, List.mem_flatten]
      exact ⟨_, List.mem_map_of_mem _ hmem, hd⟩
  rw [key, Ne, ambAux_eq_nil_iff]
  simp only [Finset.empty_inter, implies_true, true_and, not_forall]
  rw [List.pairwise_iff_get]
  push_neg
  simp only [Finset.nonempty_iff_ne_empty]

/-- C6 witness: the theorem applied to the dangling-else style IR,
whose first two productions of `S` both predict `if`. -/
theorem c6_witness :
    ∃ d ∈ findAmbiguitiesL gSix, d.ntName = "S" :=
  (c6_ll_ambiguities gSix
    ⟨"S", true, false, {"if", "other"}, {"EOF"},
      [⟨[tokTerm "if"], {"if"}⟩, ⟨[tokTerm "if"], {"if"}⟩, ⟨[tokTerm "other"], {"other"}⟩], ∅⟩
    (by decide) (by decide)).mpr (by decide)

/-- C10 counterexample: a file ending in whitespace also makes the
scanner fail with `NoMoreChars` (the whitespace loop, like the
identifier loop, demands a character after the run), contradicting the
claim that such files do not trigger the error. -/
theorem c10_counterexample :
    scanFile "A " = .error .noMoreChars := by
  decide

theorem identStart_not_ws (c : Char) (h : identStartC c = true) : c.isWhitespace = false := by
  rw [identStartC, Bool.or_eq_true] at h
  rcases h with h | h
  · rw [decide_eq_true_iff] at h
    subst h
    decide
  · by_contra hws
    rw [Bool.not_eq_false] at hws
    have hd : ((c = ' ' ∨ c = '\t') ∨ c = '\r') ∨ c = '\n' := by
      simpa [Char.isWhitespace] using hws
    rcases hd with ((h1 | h1) | h1) | h1 <;> subst h1 <;> exact absurd h (by decide)

theorem identStart_ne_slash (c : Char) (h : identStartC c = true) : ¬ (c = '/') := by
  intro hc
  subst hc
  exact absurd h (by decide)

theorem identLoop_all (f : List Char) :
    ∀ (fuel : Nat) (p : Nat), (∀ x ∈ f, identContC x = true) →
      identLoop fuel f p = .error .noMoreChars := by
  intro fuel
  induction fuel with
  | zero =>
    intro p _
    rfl
  | succ fuel ih =>
    intro p h
    cases hget : f[p]? with
    | none => simp [identLoop, currentC, hget]
    | some c =>
      have hc : identContC c = true := h c (List.getElem?_mem hget)
      simp [identLoop, currentC, hget, hc, ih (p + 1) h]

/-- C10 amended: a file consisting solely of identifier characters (and
opening with an identifier start character) makes `scan` fail with
`NoMoreChars`, because the identifier loop demands a character after
the identifier's end; ending the file with `;` or `.` right after the
identifier avoids the error, but ending it with whitespace does not
(the whitespace loop fails the same way, cf. `c10_counterexample`). -/
theorem c10_ident_eof :
    (∀ (c : Char) (cs : List Char), identStartC c = true →
        (∀ x ∈ c :: cs, identContC x = true) →
        scanChars (c :: cs) = .error .noMoreChars) ∧
    scanFile "A;" = .ok [⟨"ID", "A"⟩, ⟨"END", ";"⟩, ⟨"EOF", ""⟩] ∧
    scanFile "A." = .ok [⟨"ID", "A"⟩, ⟨"END", "."⟩, ⟨"EOF", ""⟩] := by
  refine ⟨?_, by decide, by decide⟩
  intro c cs hstart hall
  have hws : c.isWhitespace = false := identStart_not_ws c hstart
  have hsl : ¬ (c = '/') := identStart_ne_slash c hstart
  have hident : identifierF (c :: cs) 0 = .error .noMoreChars := by
    rw [identifierF]
    have h0 : currentC (c :: cs) 0 = .ok c := rfl
    rw [h0]
    exact identLoop_all (c :: cs) ((c :: cs).length + 1) _ hall
  show scanAux ((c :: cs).length + 1) (c :: cs) 0 [] = .error .noMoreChars
  rw [scanAux]
  simp [hws, hsl, hstart, hident]

/-- C10 witness: the theorem applied at the one-character file `A`. -/
theorem c10_witness :
    scanChars ['A'] = .error .noMoreChars :=
  c10_ident_eof.1 'A' [] (by decide) (by decide)

theorem nullPhase1Step_proj (st : Graph × List NonTerminal) (nt : NonTerminal) :
    ((nullPhase1Step st nt).2).map projNT = (st.2).map projNT ++ [projNT nt] := by
  unfold nullPhase1Step
  by_cases hn : nt.is_nullable = true
  · simp [hn]
  · by_cases hr : (nullGraphProds (addKey st.1 nt.name) nt.name nt.productions).2 = true <;>
      simp [hn, hr, projNT]

theorem nullPhase1_foldl_proj :
    ∀ (l : List NonTerminal) (st : Graph × List NonTerminal),
      ((l.foldl nullPhase1Step st).2).map projNT = (st.2).map projNT ++ l.map projNT := by
  intro l
  induction l with
  | nil => intro st; simp
  | cons nt l ih =>
    intro st
    rw [List.foldl_cons, ih, nullPhase1Step_proj]
    simp

theorem nullPhase3Step_proj (g : Graph) (st : List NonTerminal × Info) (nt : NonTerminal) :
    ((nullPhase3Step g st nt).1).map projNT = (st.1).map projNT ++ [projNT nt] := by
  unfold nullPhase3Step
  split <;> simp [projNT]

theorem nullPhase3_foldl_proj :
    ∀ (g : Graph) (l : List NonTerminal) (st : List NonTerminal × Info),
      ((l.foldl (nullPhase3Step g) st).1).map projNT = (st.1).map projNT ++ l.map projNT := by
  intro g l
  induction l with
  | nil => intro st; simp
  | cons nt l ih =>
    intro st
    rw [List.foldl_cons, ih, nullPhase3Step_proj]
    simp

theorem nullability_proj (nts : List NonTerminal) :
    (nullability nts).map projNT = nts.map projNT := by
  unfold nullability
  rw [nullPhase3_foldl_proj]
  simp only [List.map_nil, List.nil_append]
  unfold nullPhase1
  rw [nullPhase1_foldl_proj]
  simp

theorem firstSets_proj (nts : List NonTerminal) (info : Info) :
    (firstSets nts info).map projNT = nts.map projNT := by
  unfold firstSets
  rw [List.map_map]
  rfl

theorem followSets_proj (nts : List NonTerminal) (info : Info) :
    (followSets nts info).map projNT = nts.map projNT := by
  unfold followSets
  rw [List.map_map]
  rfl

theorem predictSets_proj (nts : List NonTerminal) :
    (predictSets nts).map projNT = nts.map projNT := by
  unfold predictSets
  rw [List.map_map]
  apply List.map_congr_left
  intro nt _
  simp [projNT, List.map_map, predictProdUpd]

theorem analyzeCore_proj (nts : List NonTerminal) :
    (analyzeCore nts).map projNT = nts.map projNT := by
  unfold analyzeCore
  rw [predictSets_proj, followSets_proj, firstSets_proj, nullability_proj]

theorem stripProd_list (p : Production) : (stripProd p).list = specStripList p.list := by
  unfold stripProd specStripList
  cases h : p.list.getLast? with
  | none => simp
  | some t =>
    by_cases hk : t.kind = "EOF" <;> simp [h, hk]

/-- C8 amended: after the pipeline's post-processing, only the start
non-terminal's productions are rewritten — each loses its last token
exactly when that token's kind is the scanner sentinel `EOF` — while
every production of every non-start non-terminal keeps its token list
unchanged; names and start flags are preserved throughout. -/
theorem c8_strip_start_only :
    ∀ (nts : List NonTerminal) (i : Nat) (nt : NonTerminal),
      nts[i]? = some nt →
      ∃ nt', (processNts nts).1[i]? = some nt' ∧
        nt'.name = nt.name ∧ nt'.is_start_term = nt.is_start_term ∧
        nt'.productions.map (fun p => p.list) =
          (if nt.is_start_term = true then nt.productions.map (fun p => specStripList p.list)
           else nt.productions.map (fun p => p.list)) := by
  intro nts i nt hi
  have hproj := analyzeCore_proj nts
  have h1 : ((analyzeCore nts)[i]?).map projNT = some (projNT nt) := by
    rw [← List.getElem?_map, hproj, List.getElem?_map, hi]
    rfl
  obtain ⟨ntMid, hmid, hpm⟩ : ∃ x, (analyzeCore nts)[i]? = some x ∧ projNT x = projNT nt := by
    cases hx : (analyzeCore nts)[i]? with
    | none => rw [hx] at h1; simp at h1
    | some x =>
      rw [hx] at h1
      simp only [Option.map_some', Option.some.injEq] at h1
      exact ⟨x, rfl, h1⟩
  have hname : ntMid.name = nt.name := congrArg (fun q => q.1) hpm
  have hstart : ntMid.is_start_term = nt.is_start_term := congrArg (fun q => q.2.1) hpm
  have hlists : ntMid.productions.map (fun p => p.list) = nt.productions.map (fun p => p.list) :=
    congrArg (fun q => q.2.2) hpm
  have hget : (processNts nts).1[i]? = some
      (if ntMid.is_start_term then { ntMid with productions := ntMid.productions.map stripProd }
       else ntMid) := by
    show (stripStage (analyzeCore nts))[i]? = _
    unfold stripStage
    rw [List.getElem?_map, hmid]
    rfl
  by_cases hs : ntMid.is_start_term = true
  · refine ⟨_, hget, ?_⟩
    rw [if_pos hs]
    refine ⟨hname, ?_, ?_⟩
    · simpa [hs] using hstart.symm
    · rw [if_pos (hstart ▸ hs)]
      show (ntMid.productions.map stripProd).map (fun p => p.list) = _
      rw [List.map_map]
      have hfuse : ((fun p : Production => p.list) ∘ stripProd)
          = (fun p : Production => specStripList p.list) := by
        funext p
        exact stripProd_list p
      rw [hfuse]
      have : ntMid.productions.map (fun p => specStripList p.list)
          = (ntMid.productions.map (fun p => p.list)).map specStripList := by
        rw [List.map_map]
        rfl
      rw [this, hlists, List.map_map]
      rfl
  · refine ⟨_, hget, ?_⟩
    rw [if_neg hs]
    refine ⟨hname, hstart, ?_⟩
    rw [if_neg]
    · exact hlists
    · rw [← hstart]
      exact hs

theorem lookupNT_map (nts : List NonTerminal) (f : NonTerminal → NonTerminal)
    (hname : ∀ nt, (f nt).name = nt.name) (v : String) :
    lookupNT (nts.map f) v = (lookupNT nts v).map f := by
  unfold lookupNT
  induction nts with
  | nil => rfl
  | cons nt rest ih =>
    by_cases h : (nt.name == v) = true
    · rw [List.map_cons, List.find?_cons_of_pos rest h,
        List.find?_cons_of_pos (rest.map f) (by rw [hname nt]; exact h)]
      rfl
    · rw [List.map_cons, List.find?_cons_of_neg rest h,
        List.find?_cons_of_neg (rest.map f) (by rw [hname nt]; exact h)]
      exact ih

theorem firstSetOf_map (nts : List NonTerminal) (f : NonTerminal → NonTerminal)
    (hname : ∀ nt, (f nt).name = nt.name)
    (hfirst : ∀ nt, (f nt).first_set = nt.first_set) (v : String) :
    firstSetOf (nts.map f) v = firstSetOf nts v := by
  unfold firstSetOf
  rw [lookupNT_map nts f hname]
  cases lookupNT nts v with
  | none => rfl
  | some nt => simp [hfirst]

theorem isNullableOf_map (nts : List NonTerminal) (f : NonTerminal → NonTerminal)
    (hname : ∀ nt, (f nt).name = nt.name)
    (hnul : ∀ nt, (f nt).is_nullable = nt.is_nullable) (v : String) :
    isNullableOf (nts.map f) v = isNullableOf nts v := by
  unfold isNullableOf
  rw [lookupNT_map nts f hname]
  cases lookupNT nts v with
  | none => rfl
  | some nt => simp [hnul]

theorem insertTerms_congr (g : Graph) (pv : String) (s1 s2 : Finset String) (h : s1 = s2) :
    insertTerms g pv s1 = insertTerms g pv s2 := by
  rw [h]

theorem followJLoop_congr (nts1 nts2 : List NonTerminal) (info : Info) (pv nn : String)
    (hfs : ∀ v, firstSetOf nts1 v = firstSetOf nts2 v) :
    ∀ (toks : List Token) (g : Graph),
      followJLoop nts1 info pv nn g toks = followJLoop nts2 info pv nn g toks := by
  intro toks
  induction toks with
  | nil => intro g; rfl
  | cons jt rest ih =>
    intro g
    unfold followJLoop
    rw [hfs jt.value]
    simp only [ih]

theorem followProdLoop_congr (nts1 nts2 : List NonTerminal) (info : Info) (nn : String)
    (hfs : ∀ v, firstSetOf nts1 v = firstSetOf nts2 v) :
    ∀ (toks : List Token) (g : Graph) (pv : Token),
      followProdLoop nts1 info nn g pv toks = followProdLoop nts2 info nn g pv toks := by
  intro toks
  induction toks with
  | nil => intro g pv; rfl
  | cons token rest ih =>
    intro g pv
    unfold followProdLoop
    split
    · exact ih _ _
    · rw [hfs token.value]
      simp only [followJLoop_congr nts1 nts2 info pv.value nn hfs rest]
      simp only [ih]

theorem followGraphProd_congr (nts1 nts2 : List NonTerminal) (info : Info) (nn : String)
    (hfs : ∀ v, firstSetOf nts1 v = firstSetOf nts2 v) (g : Graph) (p : Production) :
    followGraphProd nts1 info nn g p = followGraphProd nts2 info nn g p := by
  unfold followGraphProd
  cases p.list with
  | nil => rfl
  | cons first rest => exact followProdLoop_congr nts1 nts2 info nn hfs rest _ first

theorem buildFollowGraph_congr (nts1 nts2 : List NonTerminal) (nts : List NonTerminal)
    (info : Info) (hfs : ∀ v, firstSetOf nts1 v = firstSetOf nts2 v) :
    nts.foldl
        (fun (g : Graph) (nt : NonTerminal) =>
          let g1 := addKey g nt.name
          let g2 := nt.productions.foldl (followGraphProd nts1 info nt.name) g1
          if nt.is_start_term then insertNode g2 nt.name ⟨"EOF", true⟩ else g2)
        [("EOF", [])] =
      nts.foldl
        (fun (g : Graph) (nt : NonTerminal) =>
          let g1 := addKey g nt.name
          let g2 := nt.productions.foldl (followGraphProd nts2 info nt.name) g1
          if nt.is_start_term then insertNode g2 nt.name ⟨"EOF", true⟩ else g2)
        [("EOF", [])] := by
  have hstep : (fun (g : Graph) (nt : NonTerminal) =>
      let g1 := addKey g nt.name
      let g2 := nt.productions.foldl (followGraphProd nts1 info nt.name) g1
      if nt.is_start_term then insertNode g2 nt.name ⟨"EOF", true⟩ else g2) =
      (fun (g : Graph) (nt : NonTerminal) =>
        let g1 := addKey g nt.name
        let g2 := nt.productions.foldl (followGraphProd nts2 info nt.name) g1
        if nt.is_start_term then insertNode g2 nt.name ⟨"EOF", true⟩ else g2) := by
    funext g nt
    have : followGraphProd nts1 info nt.name = followGraphProd nts2 info nt.name := by
      funext g p
      exact followGraphProd_congr nts1 nts2 info nt.name hfs g p
    rw [this]
  rw [hstep]

theorem firstSets_idem (nts : List NonTerminal) (info : Info) :
    firstSets (firstSets nts info) info = firstSets nts info := by
  have hg : buildFirstGraph (firstSets nts info) info = buildFirstGraph nts info := by
    unfold firstSets buildFirstGraph
    rw [List.foldl_map]
    rfl
  calc firstSets (firstSets nts info) info
      = (firstSets nts info).map (firstUpd (buildFirstGraph (firstSets nts info) info)) := rfl
    _ = (nts.map (firstUpd (buildFirstGraph nts info))).map
          (firstUpd (buildFirstGraph nts info)) := by rw [hg]; rfl
    _ = nts.map (firstUpd (buildFirstGraph nts info) ∘ firstUpd (buildFirstGraph nts info)) := by
        rw [List.map_map]
    _ = nts.map (firstUpd (buildFirstGraph nts info)) := by
        apply List.map_congr_left
        intro nt _
        simp [firstUpd, Function.comp, Finset.union_assoc]
    _ = firstSets nts info := rfl

theorem followSets_idem (nts : List NonTerminal) (info : Info) :
    followSets (followSets nts info) info = followSets nts info := by
  have hfs : ∀ v, firstSetOf (followSets nts info) v = firstSetOf nts v := by
    intro v
    exact firstSetOf_map nts (followUpd (buildFollowGraph nts info))
      (fun nt => rfl) (fun nt => rfl) v
  have hg : buildFollowGraph (followSets nts info) info = buildFollowGraph nts info := by
    unfold buildFollowGraph
    rw [show followSets nts info = nts.map (followUpd (buildFollowGraph nts info)) from rfl,
      List.foldl_map]
    exact buildFollowGraph_congr (followSets nts info) nts nts info hfs
  calc followSets (followSets nts info) info
      = (followSets nts info).map (followUpd (buildFollowGraph (followSets nts info) info)) := rfl
    _ = (nts.map (followUpd (buildFollowGraph nts info))).map
          (followUpd (buildFollowGraph nts info)) := by rw [hg]; rfl
    _ = nts.map (followUpd (buildFollowGraph nts info) ∘ followUpd (buildFollowGraph nts info)) := by
        rw [List.map_map]
    _ = nts.map (followUpd (buildFollowGraph nts info)) := by
        apply List.map_congr_left
        intro nt _
        simp [followUpd, Function.comp, Finset.union_assoc]
    _ = followSets nts info := rfl

theorem predictAdds_congr (nts1 nts2 : List NonTerminal) (follow : Finset String)
    (hfs : ∀ v, firstSetOf nts1 v = firstSetOf nts2 v)
    (hnul : ∀ v, isNullableOf nts1 v = isNullableOf nts2 v) :
    ∀ l : List Token, predictAdds nts1 follow l = predictAdds nts2 follow l := by
  intro l
  induction l with
  | nil => rfl
  | cons t rest ih =>
    unfold predictAdds
    rw [hfs t.value, hnul t.value]
    split
    · rfl
    · rw [ih]

theorem predictSets_idem (nts : List NonTerminal) :
    predictSets (predictSets nts) = predictSets nts := by
  have hfs : ∀ v, firstSetOf (predictSets nts) v = firstSetOf nts v := by
    intro v
    exact firstSetOf_map nts
      (fun nt => { nt with productions := nt.productions.map (predictProdUpd nts nt.follow_set) })
      (fun nt => rfl) (fun nt => rfl) v
  have hnul : ∀ v, isNullableOf (predictSets nts) v = isNullableOf nts v := by
    intro v
    exact isNullableOf_map nts
      (fun nt => { nt with productions := nt.productions.map (predictProdUpd nts nt.follow_set) })
      (fun nt => rfl) (fun nt => rfl) v
  have hp : ∀ (follow : Finset String) (p : Production),
      predictProdUpd (predictSets nts) follow (predictProdUpd nts follow p) =
        predictProdUpd nts follow p := by
    intro follow p
    unfold predictProdUpd
    dsimp only
    rw [predictAdds_congr (predictSets nts) nts follow hfs hnul p.list,
      Finset.union_assoc, Finset.union_self]
  calc predictSets (predictSets nts)
      = (nts.map (fun nt => ({ nt with
            productions := nt.productions.map (predictProdUpd nts nt.follow_set) } : NonTerminal))).map
            (fun nt => ({ nt with
              productions :=
                nt.productions.map (predictProdUpd (predictSets nts) nt.follow_set) } : NonTerminal)) := rfl
    _ = predictSets nts := by
        rw [List.map_map]
        apply List.map_congr_left
        intro nt _
        simp only [Function.comp]
        rw [List.map_map]
        have : (predictProdUpd (predictSets nts) nt.follow_set ∘ predictProdUpd nts nt.follow_set)
            = predictProdUpd nts nt.follow_set := by
          funext p
          exact hp nt.follow_set p
        rw [this]

/-- C9 amended: the FIRST, FOLLOW and PREDICT stages are idempotent as
functions — running each a second time on the already-populated IR
leaves `first_set`, `follow_set` and every production's `predict_set`
unchanged (re-running nullability, by contrast, may change
`is_nullable`).  The reporting half of the claim is false the other
way: one default-mode pipeline run CAN report the same ambiguity
twice — both across its two `find_ambiguities` invocations (`process`
then `ll_process`) and even within a single invocation. -/
theorem c9_stage_idempotence :
    (∀ (nts : List NonTerminal) (info : Info),
      firstSets (firstSets nts info) info = firstSets nts info ∧
      followSets (followSets nts info) info = followSets nts info ∧
      predictSets (predictSets nts) = predictSets nts) ∧
    (∃ (nts : List NonTerminal) (d : AmbDiag), 2 ≤ (llPipelineDiags nts).count d) ∧
    (∃ (nts : List NonTerminal) (d : AmbDiag), 2 ≤ (findAmbiguitiesL nts).count d) :=
  ⟨fun nts info => ⟨firstSets_idem nts info, followSets_idem nts info, predictSets_idem nts⟩,
   ⟨gNinePipe, ⟨"S", {"a"}⟩, by decide⟩,
   ⟨gNine, ⟨"S", {"t"}⟩, by decide⟩⟩

theorem stateDiags_idx (i : Nat) (st : LrState) :
    ∀ d ∈ stateDiags i st, d.stateIdx = i := by
  intro d hd
  unfold stateDiags at hd
  rw [List.mem_map] at hd
  obtain ⟨e, _, rfl⟩ := hd
  rfl

theorem checkAmbAux_idx_ge :
    ∀ (l : List LrState) (k : Nat) (d : LrDiag), d ∈ checkAmbAux k l → k ≤ d.stateIdx := by
  intro l
  induction l with
  | nil =>
    intro k d hd
    simp [checkAmbAux] at hd
  | cons s l ih =>
    intro k d hd
    rw [checkAmbAux, List.mem_append] at hd
    rcases hd with hd | hd
    · rw [stateDiags_idx k s d hd]
    · exact Nat.le_of_succ_le (ih (k + 1) d hd)

theorem diagCount_aux :
    ∀ (acts : List (String × List Action)) (common : List Action) (i : Nat) (t : String),
      (acts.map Prod.fst).Nodup →
      ((acts.filter (fun e => decide (1 < e.2.length + common.length))).map
          (fun e => (⟨i, e.1, common ++ e.2⟩ : LrDiag))).countP
          (fun d => d.stateIdx == i && d.lookahead == t) =
        (match List.find? (fun e => e.1 == t) acts with
         | some e => if 1 < e.2.length + common.length then 1 else 0
         | none => 0) := by
  intro acts
  induction acts with
  | nil =>
    intro common i t _
    rfl
  | cons e acts ih =>
    intro common i t hnd
    rw [List.map_cons, List.nodup_cons] at hnd
    obtain ⟨hnotin, hnd'⟩ := hnd
    by_cases ht : (e.1 == t) = true
    · have htv : e.1 = t := by simpa using ht
      have hnone : List.find? (fun e' => e'.1 == t) acts = none := by
        rw [List.find?_eq_none]
        intro x hx hxt
        exact hnotin (by
          rw [List.mem_map]
          exact ⟨x, hx, by simpa [htv] using hxt⟩)
      have hrest := ih common i t hnd'
      rw [hnone] at hrest
      rw [List.find?_cons_of_pos acts ht]
      by_cases hc : 1 < e.2.length + common.length
      · rw [List.filter_cons, if_pos (by simpa using hc), List.map_cons, List.countP_cons]
        rw [hrest]
        simp [ht, hc]
      · rw [List.filter_cons, if_neg (by simpa using hc)]
        rw [hrest]
        simp [hc]
    · rw [List.find?_cons_of_neg acts ht]
      have hrest := ih common i t hnd'
      by_cases hc : 1 < e.2.length + common.length
      · rw [List.filter_cons, if_pos (by simpa using hc), List.map_cons, List.countP_cons]
        rw [hrest]
        simp [ht]
      · rw [List.filter_cons, if_neg (by simpa using hc)]
        exact hrest

theorem checkAmbAux_countP :
    ∀ (l : List LrState) (k i : Nat) (st : LrState) (t : String),
      l[i]? = some st → (∀ s ∈ l, (s.actions.map Prod.fst).Nodup) →
      (checkAmbAux k l).countP (fun d => d.stateIdx == (k + i) && d.lookahead == t) =
        (match List.find? (fun e => e.1 == t) st.actions with
         | some e => if 1 < e.2.length + st.common_actions.length then 1 else 0
         | none => 0) := by
  intro l
  induction l with
  | nil =>
    intro k i st t hi _
    simp at hi
  | cons s l ih =>
    intro k i st t hi hnd
    rw [checkAmbAux, List.countP_append]
    cases i with
    | zero =>
      rw [List.getElem?_cons_zero, Option.some.injEq] at hi
      cases hi
      have h2 : (checkAmbAux (k + 1) l).countP
          (fun d => d.stateIdx == (k + 0) && d.lookahead == t) = 0 := by
        rw [List.countP_eq_zero]
        intro d hd
        have := checkAmbAux_idx_ge l (k + 1) d hd
        simp only [Bool.and_eq_true, beq_iff_eq]
        rintro ⟨h, -⟩
        omega
      rw [h2, Nat.add_zero]
      have h1 := diagCount_aux s.actions s.common_actions k t (hnd s (List.mem_cons_self s l))
      unfold stateDiags
      simpa using h1
    | succ j =>
      rw [List.getElem?_cons_succ] at hi
      have h1 : (stateDiags k s).countP
          (fun d => d.stateIdx == (k + (j + 1)) && d.lookahead == t) = 0 := by
        rw [List.countP_eq_zero]
        intro d hd
        have := stateDiags_idx k s d hd
        simp only [Bool.and_eq_true, beq_iff_eq]
        rintro ⟨h, -⟩
        omega
      rw [h1, Nat.zero_add]
      have he : k + (j + 1) = (k + 1) + j := by omega
      rw [he]
      exact ih (k + 1) j st t hi (fun x hx => hnd x (List.mem_cons_of_mem s hx))

/-- C4 amended: the conflict reporter emits exactly one diagnostic for a
pair (state `i`, lookahead `t`) precisely when `t` has an entry in that
state's actions map whose length plus the common-action count exceeds
one; a terminal absent from the actions map is never reported, even
when the state holds two or more common actions (see
`c4_counterexample`). -/
theorem c4_conflicts_reported :
    ∀ (tbl : StateTable) (i : Nat) (t : String) (st : LrState),
      tbl.states[i]? = some st →
      (∀ s ∈ tbl.states, (s.actions.map Prod.fst).Nodup) →
      (checkAmbiguitiesL tbl).countP (fun d => d.stateIdx == i && d.lookahead == t) =
        (match List.find? (fun e => e.1 == t) st.actions with
         | some e => if 1 < e.2.length + st.common_actions.length then 1 else 0
         | none => 0) := by
  intro tbl i t st hi hnd
  have h := checkAmbAux_countP tbl.states 0 i st t hi hnd
  rw [Nat.zero_add] at h
  exact h

/-- C4 witness: the theorem applied to the LR(1) table of `gFour`,
whose state 4 holds a reduce/reduce conflict under lookahead `EOF`. -/
theorem c4_witness :
    (checkAmbiguitiesL (lrProcess (analyzeCore gFour) false)).countP
        (fun d => d.stateIdx == 4 && d.lookahead == "EOF") =
      (match List.find? (fun e => e.1 == "EOF")
          (LrState.mk []
            [("EOF", [Action.reduce [tokTerm "a"] "A", Action.reduce [tokTerm "a"] "B"])]
            []).actions with
       | some e => if 1 < e.2.length +
            (LrState.mk []
              [("EOF", [Action.reduce [tokTerm "a"] "A", Action.reduce [tokTerm "a"] "B"])]
              []).common_actions.length then 1 else 0
       | none => 0) :=
  c4_conflicts_reported (lrProcess (analyzeCore gFour) false) 4 "EOF"
    (LrState.mk []
      [("EOF", [Action.reduce [tokTerm "a"] "A", Action.reduce [tokTerm "a"] "B"])]
      [])
    (by decide) (by decide)

/-- The graph has an entry for key `k`. -/
def keyPresent (g : Graph) (k : String) : Prop :=
  (List.find? (fun e => e.1 == k) g).isSome = true

theorem find?_insertNode (g : Graph) (k : String) (n : GNode) (k' : String) :
    List.find? (fun e => e.1 == k') (insertNode g k n) =
      Option.map
        (fun e => if e.1 == k then
            (e.1, if e.2.any (fun m => m.key == n.key) then e.2 else e.2 ++ [n])
          else e)
        (List.find? (fun e => e.1 == k') g) := by
  unfold insertNode
  rw [List.find?_map]
  have hp : ((fun (e : String × List GNode) => e.1 == k') ∘
      (fun e => if e.1 == k then
        (e.1, if e.2.any (fun m => m.key == n.key) then e.2 else e.2 ++ [n])
      else e)) = (fun (e : String × List GNode) => e.1 == k') := by
    funext e
    by_cases he : (e.1 == k) = true <;> simp [Function.comp, he]
  rw [hp]

theorem adjOf_addKey (g : Graph) (k k' : String) : adjOf (addKey g k) k' = adjOf g k' := by
  unfold addKey adjOf
  by_cases h : (List.find? (fun e => e.1 == k) g).isSome = true
  · rw [if_pos h]
  · rw [if_neg h, List.find?_append]
    cases hf : List.find? (fun e => e.1 == k') g with
    | some e => simp
    | none =>
      by_cases hk : (((k, ([] : List GNode))).1 == k') = true
      · rw [@List.find?_cons_of_pos _ (fun e => e.1 == k') (k, []) [] hk]
        simp
      · rw [@List.find?_cons_of_neg _ (fun e => e.1 == k') (k, []) [] hk]
        simp

theorem adjOf_insertNode_subset (g : Graph) (k : String) (n : GNode) (k' : String) :
    ∀ m ∈ adjOf g k', m ∈ adjOf (insertNode g k n) k' := by
  intro m hm
  unfold adjOf at hm ⊢
  rw [find?_insertNode]
  cases hf : List.find? (fun e => e.1 == k') g with
  | none =>
    rw [hf] at hm
    simp at hm
  | some e =>
    rw [hf] at hm
    simp only [Option.map_some', Option.getD_some] at hm ⊢
    by_cases he : (e.1 == k) = true
    · rw [if_pos he]
      by_cases ha : e.2.any (fun m' => m'.key == n.key) = true
      · rw [if_pos ha]
        exact hm
      · rw [if_neg ha]
        exact List.mem_append_left _ hm
    · rw [if_neg he]
      exact hm

theorem keyPresent_addKey_self (g : Graph) (k : String) : keyPresent (addKey g k) k := by
  unfold addKey keyPresent
  by_cases h : (List.find? (fun e => e.1 == k) g).isSome = true
  · rw [if_pos h]
    exact h
  · rw [if_neg h, List.find?_append]
    rw [Option.not_isSome_iff_eq_none] at h
    rw [h, List.find?_cons_of_pos [] (by simp)]
    rfl

theorem keyPresent_addKey (g : Graph) (k k' : String) (h : keyPresent g k') :
    keyPresent (addKey g k) k' := by
  unfold addKey
  by_cases hp : (List.find? (fun e => e.1 == k) g).isSome = true
  · rw [if_pos hp]
    exact h
  · rw [if_neg hp]
    unfold keyPresent at h ⊢
    rw [List.find?_append]
    obtain ⟨e, he⟩ := Option.isSome_iff_exists.mp h
    rw [he]
    rfl

theorem keyPresent_insertNode (g : Graph) (k : String) (n : GNode) (k' : String)
    (h : keyPresent g k') : keyPresent (insertNode g k n) k' := by
  unfold keyPresent at h ⊢
  rw [find?_insertNode]
  obtain ⟨e, he⟩ := Option.isSome_iff_exists.mp h
  rw [he]
  rfl

theorem EOFInv_addKey (g : Graph) (k : String) (h : EOFInv g) : EOFInv (addKey g k) := by
  intro k' m hm
  rw [adjOf_addKey] at hm
  exact h k' m hm

theorem EOFInv_insertNode (g : Graph) (k : String) (n : GNode)
    (hn : n.key = "EOF" → n.is_term = true) (h : EOFInv g) : EOFInv (insertNode g k n) := by
  intro k' m hm hkey
  have horig : ∀ m' ∈ adjOf g k', m'.key = "EOF" → m'.is_term = true := h k'
  revert hm
  unfold adjOf
  rw [find?_insertNode]
  cases hf : List.find? (fun e => e.1 == k') g with
  | none =>
    intro hm
    simp at hm
  | some e =>
    have he2 : adjOf g k' = e.2 := by
      unfold adjOf
      rw [hf]
      rfl
    intro hm
    simp only [Option.map_some', Option.getD_some] at hm
    by_cases he : (e.1 == k) = true
    · rw [if_pos he] at hm
      by_cases ha : e.2.any (fun m' => m'.key == n.key) = true
      · rw [if_pos ha] at hm
        exact horig m (he2 ▸ hm) hkey
      · rw [if_neg ha] at hm
        rcases List.mem_append.mp hm with hm | hm
        · exact horig m (he2 ▸ hm) hkey
        · rw [List.mem_singleton] at hm
          subst hm
          exact hn hkey
    · rw [if_neg he] at hm
      exact horig m (he2 ▸ hm) hkey

theorem exists_key_insertNode (g : Graph) (k : String) (n : GNode) (h : keyPresent g k) :
    ∃ m ∈ adjOf (insertNode g k n) k, m.key = n.key := by
  obtain ⟨e, hf⟩ := Option.isSome_iff_exists.mp h
  have hek : (e.1 == k) = true := by
    have h2 := List.find?_some hf
    exact h2
  unfold adjOf
  rw [find?_insertNode, hf]
  simp only [Option.map_some', Option.getD_some, if_pos hek]
  by_cases ha : e.2.any (fun m => m.key == n.key) = true
  · rw [if_pos ha]
    obtain ⟨m, hm, hmk⟩ := List.any_eq_true.mp ha
    exact ⟨m, hm, by simpa using hmk⟩
  · rw [if_neg ha]
    exact ⟨n, by simp, rfl⟩

/-- A graph property preserved by the two primitive graph operations. -/
def GPreserved (P : Graph → Prop) : Prop :=
  (∀ g k, P g → P (addKey g k)) ∧ (∀ g k n, P g → P (insertNode g k n))

theorem foldl_preserve {α : Type} (P : Graph → Prop) (f : Graph → α → Graph)
    (hf : ∀ g a, P g → P (f g a)) : ∀ (l : List α) (g : Graph), P g → P (List.foldl f g l) := by
  intro l
  induction l with
  | nil => intro g hg; exact hg
  | cons a l ih => intro g hg; exact ih (f g a) (hf g a hg)

theorem insertTerms_preserve (P : Graph → Prop) (h : GPreserved P) (g : Graph) (pv : String)
    (s : Finset String) (hg : P g) : P (insertTerms g pv s) :=
  foldl_preserve P _ (fun g a hga => h.2 g pv ⟨a, true⟩ hga) (sortFS s) g hg

theorem followJLoop_preserve (P : Graph → Prop) (h : GPreserved P)
    (nts : List NonTerminal) (info : Info) (pv nn : String) :
    ∀ (toks : List Token) (g : Graph), P g → P (followJLoop nts info pv nn g toks) := by
  intro toks
  induction toks with
  | nil =>
    intro g hg
    exact h.2 g pv ⟨nn, false⟩ hg
  | cons jt rest ih =>
    intro g hg
    unfold followJLoop
    split
    · have h2 : P (insertTerms (addKey g jt.value) pv (firstSetOf nts jt.value)) :=
        insertTerms_preserve P h _ pv _ (h.1 g jt.value hg)
      split
      · exact ih _ h2
      · exact h2
    · have h2 : P (insertNode (addKey g jt.value) pv ⟨jt.value, true⟩) :=
        h.2 _ pv _ (h.1 g jt.value hg)
      split
      · exact ih _ h2
      · exact h2

theorem followProdLoop_preserve (P : Graph → Prop) (h : GPreserved P)
    (nts : List NonTerminal) (info : Info) (nn : String) :
    ∀ (toks : List Token) (g : Graph) (pv : Token), P g →
      P (followProdLoop nts info nn g pv toks) := by
  intro toks
  induction toks with
  | nil =>
    intro g pv hg
    unfold followProdLoop
    split
    · exact h.2 g pv.value ⟨nn, false⟩ hg
    · exact hg
  | cons token rest ih =>
    intro g pv hg
    unfold followProdLoop
    split
    · exact ih _ _ (h.1 g token.value hg)
    · split
      · have h2 : P (insertTerms (addKey g token.value) pv.value (firstSetOf nts token.value)) :=
          insertTerms_preserve P h _ _ _ (h.1 g token.value hg)
        split
        · exact ih _ _ (followJLoop_preserve P h nts info pv.value nn rest _ h2)
        · exact ih _ _ h2
      · have h2 : P (insertNode (addKey g token.value) pv.value ⟨token.value, true⟩) :=
          h.2 _ _ _ (h.1 g token.value hg)
        split
        · exact ih _ _ (followJLoop_preserve P h nts info pv.value nn rest _ h2)
        · exact ih _ _ h2

theorem followGraphProd_preserve (P : Graph → Prop) (h : GPreserved P)
    (nts : List NonTerminal) (info : Info) (nn : String) (g : Graph) (p : Production)
    (hg : P g) : P (followGraphProd nts info nn g p) := by
  unfold followGraphProd
  cases p.list with
  | nil => exact hg
  | cons first rest =>
    exact followProdLoop_preserve P h nts info nn rest _ first (h.1 g first.value hg)

theorem buildStep_preserve (P : Graph → Prop) (h : GPreserved P)
    (nts : List NonTerminal) (info : Info) (nt : NonTerminal) (g : Graph) (hg : P g) :
    P (let g1 := addKey g nt.name
       let g2 := nt.productions.foldl (followGraphProd nts info nt.name) g1
       if nt.is_start_term then insertNode g2 nt.name ⟨"EOF", true⟩ else g2) := by
  have h1 : P (addKey g nt.name) := h.1 g nt.name hg
  have h2 : P (nt.productions.foldl (followGraphProd nts info nt.name) (addKey g nt.name)) :=
    foldl_preserve P _ (fun g' p hg' => followGraphProd_preserve P h nts info nt.name g' p hg')
      nt.productions _ h1
  show P (if nt.is_start_term then _ else _)
  split
  · exact h.2 _ nt.name ⟨"EOF", true⟩ h2
  · exact h2

theorem insertTerms_EOFInv (g : Graph) (pv : String) (s : Finset String) (hg : EOFInv g) :
    EOFInv (insertTerms g pv s) :=
  foldl_preserve EOFInv _
    (fun g' a hg' => EOFInv_insertNode g' pv ⟨a, true⟩ (fun _ => rfl) hg') (sortFS s) g hg

theorem followJLoop_EOFInv (nts : List NonTerminal) (info : Info) (pv nn : String)
    (hnn : nn ≠ "EOF") :
    ∀ (toks : List Token) (g : Graph), EOFInv g → EOFInv (followJLoop nts info pv nn g toks) := by
  intro toks
  induction toks with
  | nil =>
    intro g hg
    exact EOFInv_insertNode g pv ⟨nn, false⟩ (fun hk => absurd hk hnn) hg
  | cons jt rest ih =>
    intro g hg
    unfold followJLoop
    split
    · have h2 : EOFInv (insertTerms (addKey g jt.value) pv (firstSetOf nts jt.value)) :=
        insertTerms_EOFInv _ pv _ (EOFInv_addKey g jt.value hg)
      split
      · exact ih _ h2
      · exact h2
    · have h2 : EOFInv (insertNode (addKey g jt.value) pv ⟨jt.value, true⟩) :=
        EOFInv_insertNode _ pv _ (fun _ => rfl) (EOFInv_addKey g jt.value hg)
      split
      · exact ih _ h2
      · exact h2

theorem followProdLoop_EOFInv (nts : List NonTerminal) (info : Info) (nn : String)
    (hnn : nn ≠ "EOF") :
    ∀ (toks : List Token) (g : Graph) (pv : Token), EOFInv g →
      EOFInv (followProdLoop nts info nn g pv toks) := by
  intro toks
  induction toks with
  | nil =>
    intro g pv hg
    unfold followProdLoop
    split
    · exact EOFInv_insertNode g pv.value ⟨nn, false⟩ (fun hk => absurd hk hnn) hg
    · exact hg
  | cons token rest ih =>
    intro g pv hg
    unfold followProdLoop
    split
    · exact ih _ _ (EOFInv_addKey g token.value hg)
    · split
      · have h2 : EOFInv (insertTerms (addKey g token.value) pv.value
            (firstSetOf nts token.value)) :=
          insertTerms_EOFInv _ _ _ (EOFInv_addKey g token.value hg)
        split
        · exact ih _ _ (followJLoop_EOFInv nts info pv.value nn hnn rest _ h2)
        · exact ih _ _ h2
      · have h2 : EOFInv (insertNode (addKey g token.value) pv.value ⟨token.value, true⟩) :=
          EOFInv_insertNode _ _ _ (fun _ => rfl) (EOFInv_addKey g token.value hg)
        split
        · exact ih _ _ (followJLoop_EOFInv nts info pv.value nn hnn rest _ h2)
        · exact ih _ _ h2

theorem followGraphProd_EOFInv (nts : List NonTerminal) (info : Info) (nn : String)
    (hnn : nn ≠ "EOF") (g : Graph) (p : Production) (hg : EOFInv g) :
    EOFInv (followGraphProd nts info nn g p) := by
  unfold followGraphProd
  cases p.list with
  | nil => exact hg
  | cons first rest =>
    exact followProdLoop_EOFInv nts info nn hnn rest _ first (EOFInv_addKey g first.value hg)

theorem buildStep_EOFInv (nts : List NonTerminal) (info : Info) (nt : NonTerminal)
    (hnn : nt.name ≠ "EOF") (g : Graph) (hg : EOFInv g) :
    EOFInv (let g1 := addKey g nt.name
            let g2 := nt.productions.foldl (followGraphProd nts info nt.name) g1
            if nt.is_start_term then insertNode g2 nt.name ⟨"EOF", true⟩ else g2) := by
  have h2 : EOFInv (nt.productions.foldl (followGraphProd nts info nt.name)
      (addKey g nt.name)) :=
    foldl_preserve EOFInv _
      (fun g' p hg' => followGraphProd_EOFInv nts info nt.name hnn g' p hg')
      nt.productions _ (EOFInv_addKey g nt.name hg)
  show EOFInv (if nt.is_start_term then _ else _)
  split
  · exact EOFInv_insertNode _ nt.name ⟨"EOF", true⟩ (fun _ => rfl) h2
  · exact h2

theorem EOFInv_seed : EOFInv [("EOF", ([] : List GNode))] := by
  intro k n hm
  exfalso
  revert hm
  unfold adjOf
  by_cases hk : ((("EOF", ([] : List GNode))).1 == k) = true
  · rw [@List.find?_cons_of_pos _ (fun e => e.1 == k) ("EOF", []) [] hk]
    simp
  · rw [@List.find?_cons_of_neg _ (fun e => e.1 == k) ("EOF", []) [] hk]
    simp

theorem buildFollowGraph_foldl_EOFInv (nts : List NonTerminal) (info : Info) :
    ∀ (l : List NonTerminal) (g : Graph), (∀ x ∈ l, x.name ≠ "EOF") → EOFInv g →
      EOFInv (l.foldl
        (fun g nt =>
          let g1 := addKey g nt.name
          let g2 := nt.productions.foldl (followGraphProd nts info nt.name) g1
          if nt.is_start_term then insertNode g2 nt.name ⟨"EOF", true⟩ else g2) g) := by
  intro l
  induction l with
  | nil => intro g _ hg; exact hg
  | cons nt l ih =>
    intro g hno hg
    rw [List.foldl_cons]
    exact ih _ (fun x hx => hno x (List.mem_cons_of_mem nt hx))
      (buildStep_EOFInv nts info nt (hno nt (List.mem_cons_self nt l)) g hg)

theorem buildFollowGraph_EOFInv (nts : List NonTerminal) (info : Info)
    (hno : ∀ x ∈ nts, x.name ≠ "EOF") : EOFInv (buildFollowGraph nts info) :=
  buildFollowGraph_foldl_EOFInv nts info nts [("EOF", [])] hno EOFInv_seed

theorem buildFollowGraph_eofEdge (nts : List NonTerminal) (info : Info) (nt : NonTerminal)
    (hmem : nt ∈ nts) (hstart : nt.is_start_term = true) :
    ∃ m ∈ adjOf (buildFollowGraph nts info) nt.name, m.key = "EOF" := by
  obtain ⟨l1, l2, hsplit⟩ := List.append_of_mem hmem
  subst hsplit
  have hGP : GPreserved (fun g => ∃ m ∈ adjOf g nt.name, m.key = "EOF") := by
    constructor
    · intro g k hg
      rw [adjOf_addKey]
      exact hg
    · rintro g k n ⟨m, hm, hkey⟩
      exact ⟨m, adjOf_insertNode_subset g k n nt.name m hm, hkey⟩
  have hGPkey : GPreserved (fun g => keyPresent g nt.name) := by
    constructor
    · intro g k hg
      exact keyPresent_addKey g k nt.name hg
    · intro g k n hg
      exact keyPresent_insertNode g k n nt.name hg
  unfold buildFollowGraph
  rw [List.foldl_append, List.foldl_cons]
  apply foldl_preserve (fun g => ∃ m ∈ adjOf g nt.name, m.key = "EOF") _
    (fun g x hg => buildStep_preserve _ hGP _ info x g hg) l2
  simp only [hstart, if_true]
  exact exists_key_insertNode _ nt.name ⟨"EOF", true⟩
    (foldl_preserve (fun g => keyPresent g nt.name) _
      (fun g' p hg' => followGraphProd_preserve _ hGPkey _ info nt.name g' p hg')
      nt.productions _ (keyPresent_addKey_self _ nt.name))

theorem foldl_state_mono {α : Type}
    (step : (Finset String × List String) → α → (Finset String × List String))
    (hstep : ∀ st a, st.1 ⊆ (step st a).1 ∧ ∀ x ∈ st.2, x ∈ (step st a).2) :
    ∀ (l : List α) (st : Finset String × List String),
      st.1 ⊆ (List.foldl step st l).1 ∧ ∀ x ∈ st.2, x ∈ (List.foldl step st l).2 := by
  intro l
  induction l with
  | nil =>
    intro st
    exact ⟨Finset.Subset.refl _, fun x hx => hx⟩
  | cons a l ih =>
    intro st
    rw [List.foldl_cons]
    obtain ⟨h1, h2⟩ := hstep st a
    obtain ⟨h3, h4⟩ := ih (step st a)
    exact ⟨h1.trans h3, fun x hx => h4 x (h2 x hx)⟩

/-- The DFS only grows the accumulated set and the visited list. -/
theorem dfsAux_mono :
    ∀ (fuel : Nat) (g : Graph) (s : String) (st : Finset String × List String),
      st.1 ⊆ (dfsAux fuel g s st).1 ∧ ∀ x ∈ st.2, x ∈ (dfsAux fuel g s st).2 := by
  intro fuel
  induction fuel with
  | zero =>
    intro g s st
    exact ⟨Finset.Subset.refl _, fun x hx => hx⟩
  | succ fuel ih =>
    intro g s st
    obtain ⟨acc, vis⟩ := st
    rw [dfsAux]
    have hstep : ∀ (st : Finset String × List String) (n : GNode),
        st.1 ⊆ ((fun (st : Finset String × List String) n =>
          if st.2.contains n.key then st
          else dfsAux fuel g n.key
            ((if n.is_term then insert n.key st.1 else st.1), st.2)) st n).1 ∧
        ∀ x ∈ st.2, x ∈ ((fun (st : Finset String × List String) n =>
          if st.2.contains n.key then st
          else dfsAux fuel g n.key
            ((if n.is_term then insert n.key st.1 else st.1), st.2)) st n).2 := by
      intro st n
      by_cases hc : st.2.contains n.key = true
      · simp only [hc, if_true]
        exact ⟨Finset.Subset.refl _, fun x hx => hx⟩
      · simp only [hc, if_false]
        obtain ⟨h1, h2⟩ := ih g n.key ((if n.is_term then insert n.key st.1 else st.1), st.2)
        constructor
        · refine Finset.Subset.trans ?_ h1
          by_cases ht : n.is_term = true
          · simp only [ht, if_true]
            exact Finset.subset_insert _ _
          · simp only [ht, if_false]
            exact Finset.Subset.refl _
        · exact h2
    obtain ⟨h1, h2⟩ := foldl_state_mono _ hstep (adjOf g s) (acc, vis ++ [s])
    exact ⟨h1, fun x hx => h2 x (List.mem_append_left _ hx)⟩

theorem dfsAux_succ (fuel : Nat) (g : Graph) (s : String) (acc : Finset String)
    (vis : List String) :
    dfsAux (fuel + 1) g s (acc, vis) = (adjOf g s).foldl (dfsStep fuel g) (acc, vis ++ [s]) := rfl

theorem dfsStep_mono (fuel : Nat) (g : Graph) (st : Finset String × List String) (n : GNode) :
    st.1 ⊆ (dfsStep fuel g st n).1 ∧ ∀ x ∈ st.2, x ∈ (dfsStep fuel g st n).2 := by
  unfold dfsStep
  by_cases hc : st.2.contains n.key = true
  · simp only [hc, if_true]
    exact ⟨Finset.Subset.refl _, fun x hx => hx⟩
  · simp only [hc, if_false]
    obtain ⟨h1, h2⟩ :=
      dfsAux_mono fuel g n.key ((if n.is_term then insert n.key st.1 else st.1), st.2)
    refine ⟨Finset.Subset.trans ?_ h1, h2⟩
    by_cases ht : n.is_term = true
    · simp only [ht, if_true]
      exact Finset.subset_insert _ _
    · simp only [ht, if_false]
      exact Finset.Subset.refl _

theorem foldl_inv {α β : Type} (P : β → Prop) (step : β → α → β) :
    ∀ (l : List α), (∀ st a, a ∈ l → P st → P (step st a)) →
      ∀ st, P st → P (List.foldl step st l) := by
  intro l
  induction l with
  | nil =>
    intro _ st h
    exact h
  | cons a l ih =>
    intro hstep st h
    rw [List.foldl_cons]
    exact ih (fun st b hb hp => hstep st b (List.mem_cons_of_mem a hb) hp) _
      (hstep st a (List.mem_cons_self a l) h)

/-- Over a graph whose `EOF`-keyed nodes are all terminal-flagged, the
DFS keeps the invariant: if `EOF` has been visited it was collected. -/
theorem dfsAux_eofP :
    ∀ (fuel : Nat) (g : Graph), EOFInv g →
      ∀ (s : String) (st : Finset String × List String),
        (s = "EOF" → "EOF" ∈ st.1) → ("EOF" ∈ st.2 → "EOF" ∈ st.1) →
        "EOF" ∈ (dfsAux fuel g s st).2 → "EOF" ∈ (dfsAux fuel g s st).1 := by
  intro fuel
  induction fuel with
  | zero =>
    intro g _ s st _ hok
    exact hok
  | succ fuel ih =>
    intro g hg s st hs hok
    obtain ⟨acc, vis⟩ := st
    rw [dfsAux_succ]
    apply foldl_inv (fun st : Finset String × List String => "EOF" ∈ st.2 → "EOF" ∈ st.1)
      (dfsStep fuel g) (adjOf g s) ?_ (acc, vis ++ [s]) ?_
    · intro st n hn hok'
      unfold dfsStep
      by_cases hc : st.2.contains n.key = true
      · simp only [hc, if_true]
        exact hok'
      · simp only [hc, if_false]
        apply ih g hg n.key
        · intro hkey
          have ht : n.is_term = true := hg s n hn hkey
          simp only [ht, if_true, hkey]
          exact Finset.mem_insert_self _ _
        · intro h2
          have h3 := hok' h2
          by_cases ht : n.is_term = true
          · simp only [ht, if_true]
            exact Finset.mem_insert_of_mem h3
          · simp only [ht, if_false]
            exact h3
    · intro h
      rcases List.mem_append.mp h with h | h
      · exact hok h
      · rw [List.mem_singleton] at h
        exact hs h.symm

theorem dfsStep_eofP (fuel : Nat) (g : Graph) (hg : EOFInv g)
    (st : Finset String × List String) (n : GNode)
    (hn : n.key = "EOF" → n.is_term = true)
    (hok : "EOF" ∈ st.2 → "EOF" ∈ st.1) :
    "EOF" ∈ (dfsStep fuel g st n).2 → "EOF" ∈ (dfsStep fuel g st n).1 := by
  unfold dfsStep
  by_cases hc : st.2.contains n.key = true
  · simp only [hc, if_true]
    exact hok
  · simp only [hc, if_false]
    apply dfsAux_eofP fuel g hg n.key
    · intro hkey
      have ht : n.is_term = true := hn hkey
      simp only [ht, if_true, hkey]
      exact Finset.mem_insert_self _ _
    · intro h2
      have h3 := hok h2
      by_cases ht : n.is_term = true
      · simp only [ht, if_true]
        exact Finset.mem_insert_of_mem h3
      · simp only [ht, if_false]
        exact h3

/-- When the adjacency list being folded over holds an `EOF`-keyed node,
the DFS fold collects `EOF`. -/
theorem dfsFold_capture (fuel : Nat) (g : Graph) (hg : EOFInv g) :
    ∀ (l : List GNode), (∀ n ∈ l, n.key = "EOF" → n.is_term = true) →
      ∀ (st : Finset String × List String), ("EOF" ∈ st.2 → "EOF" ∈ st.1) →
      (∃ n ∈ l, n.key = "EOF") →
      "EOF" ∈ (l.foldl (dfsStep fuel g) st).1 := by
  intro l
  induction l with
  | nil =>
    rintro _ st _ ⟨n, hn, _⟩
    exact absurd hn (List.not_mem_nil n)
  | cons n ns ih =>
    rintro hl st hok ⟨m, hm, hkey⟩
    rw [List.foldl_cons]
    rcases List.mem_cons.mp hm with rfl | hm
    · by_cases hc : st.2.contains m.key = true
      · have hmem : "EOF" ∈ st.2 := by
          rw [hkey] at hc
          exact List.mem_of_elem_eq_true hc
        have h1 : "EOF" ∈ (dfsStep fuel g st m).1 := by
          unfold dfsStep
          simp only [hc, if_true]
          exact hok hmem
        exact (foldl_state_mono (dfsStep fuel g) (dfsStep_mono fuel g) ns _).1 h1
      · have ht : m.is_term = true := hl m (List.mem_cons_self m ns) hkey
        have h1 : "EOF" ∈ (dfsStep fuel g st m).1 := by
          unfold dfsStep
          simp only [hc, if_false, ht, if_true]
          apply (dfsAux_mono fuel g m.key _).1
          rw [hkey]
          exact Finset.mem_insert_self _ _
        exact (foldl_state_mono (dfsStep fuel g) (dfsStep_mono fuel g) ns _).1 h1
    · refine ih (fun x hx hk => hl x (List.mem_cons_of_mem n hx) hk) (dfsStep fuel g st n)
        (dfsStep_eofP fuel g hg st n (hl n (List.mem_cons_self n ns)) hok) ⟨m, hm, hkey⟩

/-- The root call of the DFS collects `EOF` whenever the root's
adjacency holds an `EOF`-keyed node. -/
theorem dfsAux_eof_capture (fuel : Nat) (g : Graph) (hg : EOFInv g) (s : String)
    (acc : Finset String) (vis : List String) (hs : s ≠ "EOF")
    (hok : "EOF" ∈ vis → "EOF" ∈ acc)
    (hex : ∃ n ∈ adjOf g s, n.key = "EOF") (hfz : fuel ≠ 0) :
    "EOF" ∈ (dfsAux fuel g s (acc, vis)).1 := by
  cases fuel with
  | zero => exact absurd rfl hfz
  | succ fuel =>
    rw [dfsAux_succ]
    apply dfsFold_capture fuel g hg (adjOf g s) (fun n hn => hg s n hn) (acc, vis ++ [s]) ?_ hex
    intro h
    rcases List.mem_append.mp h with h | h
    · exact hok h
    · rw [List.mem_singleton] at h
      exact absurd h.symm hs

/-- C7: for every IR and nullability map, every non-terminal flagged as
start whose IR declares no non-terminal named `EOF` has `EOF` in its
`follow_set` after `follow_sets` runs: the builder inserts the `EOF`
edge on the start symbol and the DFS collects it. -/
theorem c7_follow_eof (nts : List NonTerminal) (info : Info) (i : Nat) (nt : NonTerminal)
    (hget : nts[i]? = some nt) (hstart : nt.is_start_term = true)
    (hno : ∀ x ∈ nts, x.name ≠ "EOF") :
    ∃ nt', (followSets nts info)[i]? = some nt' ∧ "EOF" ∈ nt'.follow_set := by
  have hmem : nt ∈ nts := List.getElem?_mem hget
  have hg : EOFInv (buildFollowGraph nts info) := buildFollowGraph_EOFInv nts info hno
  have hex := buildFollowGraph_eofEdge nts info nt hmem hstart
  have hname : nt.name ≠ "EOF" := hno nt hmem
  have hfz : graphFuel (buildFollowGraph nts info) ≠ 0 := by
    unfold graphFuel
    omega
  have hin : "EOF" ∈ (dfsAux (graphFuel (buildFollowGraph nts info))
      (buildFollowGraph nts info) nt.name (∅, [])).1 :=
    dfsAux_eof_capture _ _ hg nt.name ∅ [] hname
      (fun h => absurd h (List.not_mem_nil _)) hex hfz
  refine ⟨followUpd (buildFollowGraph nts info) nt, ?_, ?_⟩
  · unfold followSets
    rw [List.getElem?_map, hget]
    rfl
  · exact Finset.mem_union_right _ hin

/-- C7 witness: the theorem applied to the IR of `S ::= A 'x' ; A ::= ;`
in the pipeline state entering `follow_sets`. -/
theorem c7_witness :
    (firstSets (nullability gFive) (mkInfo (nullability gFive)))[0]? =
        some ⟨"S", true, false, {"x"}, ∅, [mkProd [tokID "A", tokTerm "x"]], ∅⟩ ∧
    ∃ nt', (followSets (firstSets (nullability gFive) (mkInfo (nullability gFive)))
        (mkInfo (nullability gFive)))[0]? = some nt' ∧ "EOF" ∈ nt'.follow_set :=
  ⟨by decide,
   c7_follow_eof (firstSets (nullability gFive) (mkInfo (nullability gFive)))
     (mkInfo (nullability gFive)) 0
     ⟨"S", true, false, {"x"}, ∅, [mkProd [tokID "A", tokTerm "x"]], ∅⟩
     (by decide) (by decide) (by decide)⟩

/-- C8 witness: the theorem applied to the start non-terminal of the
two-non-terminal IR `gEight`. -/
theorem c8_witness :
    ∃ nt', (processNts gEight).1[0]? = some nt' ∧
      nt'.name = "S" ∧ nt'.is_start_term = true ∧
      nt'.productions.map (fun p => p.list) =
        (if true = true then [mkProd [tokTerm "a"]].map (fun p => specStripList p.list)
         else [mkProd [tokTerm "a"]].map (fun p => p.list)) :=
  c8_strip_start_only gEight 0 (mkNT "S" true [mkProd [tokTerm "a"]]) (by decide)

end Parseify
